import Mathlib

/-!
Verification of `auslib/blobs/base.py` (balrog): a shallow embedding of the
three-way merge engine (`merge_dicts`, `merge_lists`), the blob factory
(`createBlob`) and the validation entry point (`Blob.validate`), together
with proofs about the specified behaviour.

The source is Python 2: values are JSON-like (`str`/`unicode` strings,
integers, booleans, `None`, dicts with string keys, lists).  We embed such
values as `PyVal`.  Python peculiarities that the code depends on are
modelled explicitly:
  * `==` equates `str` and `unicode` of the same text, and equates numbers
    with booleans (`1 == True`); dicts compare by key set and value
    equality, lists pointwise.  This is `pyEq`.
  * `type(x)` is modelled by `typeOf`; `isinstance(x, t)` by `isinst`
    (in Python 2 `bool` is a subclass of `int`, the only subclass pair
    among the runtime types a JSON document can contain).
  * `None` is falsy, `0`, `""`, `[]`, `{}` and `False` are falsy
    (`pyTruthy`), which `createBlob` relies on.
-/

/-- Runtime types of the values a document can contain (Python 2 view:
`str` and `unicode` are distinct types; `NoneType` is the type of `None`). -/
inductive PyType where
  | strT | ustrT | intT | boolT | noneT | dictT | listT
deriving DecidableEq, Repr

/-- JSON-like Python 2 values: the universal document representation used by
`merge_dicts`.  `str` is a Python 2 byte string, `ustr` a `unicode` string
(both carry their text), `null` is Python `None`.  Dicts are association
lists with string keys (Python dicts never hold duplicate keys; key order is
irrelevant to every property we state because dict comparison goes through
`pyEq`). -/
inductive PyVal where
  | str (s : String)
  | ustr (s : String)
  | int (n : Int)
  | bool (b : Bool)
  | null
  | dict (d : List (String × PyVal))
  | list (l : List PyVal)

abbrev Entry := String × PyVal

/-- `type(v)` for a document value. -/
def typeOf : PyVal → PyType
  | .str _ => .strT
  | .ustr _ => .ustrT
  | .int _ => .intT
  | .bool _ => .boolT
  | .null => .noneT
  | .dict _ => .dictT
  | .list _ => .listT

/-- `isinstance(v, t)` for the runtime types above.  In Python 2 `bool` is a
subclass of `int`; no other subclass relation exists between these types. -/
def isinst (v : PyVal) (t : PyType) : Bool :=
  typeOf v == t || (typeOf v == .boolT && t == .intT)

def isDictV : PyVal → Bool
  | .dict _ => true
  | _ => false

def isListV : PyVal → Bool
  | .list _ => true
  | _ => false

/-- A scalar is anything the merge engine does not recurse into:
strings, numbers, booleans and `None`. -/
def isScalar : PyVal → Bool
  | .dict _ => false
  | .list _ => false
  | _ => true

/-- Dictionary lookup, `d[key]` / `d.get(key)` as an `Option`
(first matching key; Python dicts have unique keys). -/
def lookupK (key : String) : List Entry → Option PyVal
  | [] => none
  | e :: rest => if e.1 = key then some e.2 else lookupK key rest

/-- `key in d`. -/
def inD (key : String) (d : List Entry) : Bool :=
  (lookupK key d).isSome

/-- `d.get(key)` (returns `None` when the key is absent). -/
def getV (key : String) (d : List Entry) : PyVal :=
  (lookupK key d).getD .null

/-- `d.get(key, default)`. -/
def getDef (key : String) (default : PyVal) (d : List Entry) : PyVal :=
  (lookupK key d).getD default

/-- `d.keys()`. -/
def keysOf (d : List Entry) : List String :=
  d.map (fun e => e.1)

theorem one_le_sizeOf_list {α : Type} [SizeOf α] (l : List α) : 1 ≤ sizeOf l := by
  cases l with
  | nil => simp
  | cons a t => simp; omega

theorem sizeOf_lookupK {key : String} {d : List Entry} {v : PyVal}
    (h : lookupK key d = some v) : sizeOf v + 3 ≤ sizeOf d := by
  induction d with
  | nil => simp [lookupK] at h
  | cons e rest ih =>
    simp only [lookupK] at h
    by_cases he : e.1 = key
    · simp [he] at h
      subst h
      rcases e with ⟨k, w⟩
      simp
      have := one_le_sizeOf_list rest
      omega
    · simp [he] at h
      have := ih h
      rcases e with ⟨k, w⟩
      simp
      omega

theorem sizeOf_getDef_le (key : String) (dflt : PyVal) (d : List Entry)
    (hd : sizeOf dflt ≤ 2) : sizeOf (getDef key dflt d) ≤ sizeOf d + 1 := by
  unfold getDef
  cases h : lookupK key d with
  | none =>
    simp
    have := one_le_sizeOf_list d
    omega
  | some v =>
    simp
    have := sizeOf_lookupK h
    omega

theorem sizeOf_getDef_strict {k : String} {d : List Entry} {f : PyVal}
    (h : (lookupK k d).isSome) :
    sizeOf (getDef k f d) + 3 ≤ sizeOf d := by
  unfold getDef
  cases hl : lookupK k d with
  | none => rw [hl] at h; simp at h
  | some v =>
    simp
    exact sizeOf_lookupK hl

/-!
## Python `==` on document values (`pyEq`)

`a == b` in Python 2, restricted to JSON-like values: `str`/`unicode` with
the same text are equal, numbers and booleans compare by numeric value
(`1 == True`), dicts by length plus key-wise value equality, lists
pointwise.  All other cross-type comparisons are unequal.
-/

mutual

def pyEq : PyVal → PyVal → Bool
  | .str a, .str b => a == b
  | .str a, .ustr b => a == b
  | .ustr a, .str b => a == b
  | .ustr a, .ustr b => a == b
  | .int a, .int b => a == b
  | .int a, .bool b => a == (if b then (1 : Int) else 0)
  | .bool a, .int b => (if a then (1 : Int) else 0) == b
  | .bool a, .bool b => a == b
  | .null, .null => true
  | .list a, .list b => pyEqList a b
  | .dict a, .dict b => a.length == b.length && pyEqDictSub a b
  | _, _ => false
termination_by a b => sizeOf a + sizeOf b
decreasing_by
  all_goals simp_wf
  all_goals omega

def pyEqList : List PyVal → List PyVal → Bool
  | [], [] => true
  | x :: xs, y :: ys => pyEq x y && pyEqList xs ys
  | _, _ => false
termination_by a b => sizeOf a + sizeOf b
decreasing_by
  all_goals simp_wf
  all_goals omega

def pyEqDictSub : List Entry → List Entry → Bool
  | [], _ => true
  | e :: rest, d2 =>
    (match hw : lookupK e.1 d2 with
     | some w => pyEq e.2 w
     | none => false) && pyEqDictSub rest d2
termination_by a b => sizeOf a + sizeOf b
decreasing_by
  all_goals simp_wf
  all_goals first
    | omega
    | (rcases e with ⟨k, v⟩
       have h9 := sizeOf_lookupK hw
       simp at *
       omega)

end

/-!
## `merge_lists` (base.py lines 58-64)

```
def merge_lists(*lists):
    result = []
    for l in lists:
        for i in l:
            if i not in result or not isinstance(i, type(result[result.index(i)])):
                result.append(i)
    return result
```

`i in result` and `result.index(i)` both scan `result` from the front,
comparing each element `r` with `r == i`; `firstEq` returns the first such
element.
-/

/-- The first element of `res` that compares `==` to `i`
(what `result[result.index(i)]` denotes when `i in result`). -/
def firstEq (i : PyVal) (res : List PyVal) : Option PyVal :=
  res.find? (fun r => pyEq r i)

/-- One iteration of the inner loop of `merge_lists`: append `i` unless an
equal element is already present and `i` is an instance of its type. -/
def mergeStep (res : List PyVal) (i : PyVal) : List PyVal :=
  match firstEq i res with
  | none => res ++ [i]
  | some r => if isinst i (typeOf r) then res else res ++ [i]

/-- `merge_lists(*lists)`. -/
def merge_lists (lists : List (List PyVal)) : List PyVal :=
  lists.foldl (fun res l => l.foldl mergeStep res) []

/-- Failure modes of the merge.  The first three are the `ValueError` /
`KeyError` messages raised explicitly by `merge_dicts`; the last two model
the uncaught runtime errors Python would raise when a recursive call
receives a `None` where a mapping (`None.keys()`, `AttributeError`) or an
iterable (`for i in None`, `TypeError`) is required — reachable because
`d.get(key, {})` returns an explicit `None` value stored under `key`. -/
inductive MergeErr where
  | typeMismatch (key : String)
  | bothChanged (key : String)
  | noValueFound (key : String)
  | attributeError
  | typeError
deriving DecidableEq, Repr

/-- Iterating an argument of `merge_lists` coming from
`d.get(key, [])`: a list iterates its elements; only `None` can otherwise
reach this point (the type check rules out every other mix with `list`),
and iterating `None` raises `TypeError`. -/
def asPyList : PyVal → Except MergeErr (List PyVal)
  | .list l => .ok l
  | _ => .error .typeError

/-- `merge_lists(*[d.get(key, []) for d in dicts])` as called from
`merge_dicts` (three arguments, failing at the first non-iterable). -/
def merge_lists3 (a l r : PyVal) : Except MergeErr (List PyVal) := do
  let la ← asPyList a
  let ll ← asPyList l
  let lr ← asPyList r
  pure (merge_lists [la, ll, lr])

/-!
## `merge_dicts` (base.py lines 67-100)

```
def merge_dicts(ancestor, left, right):
    result = {}
    dicts = (ancestor, left, right)
    for key in set(key for d in dicts for key in d.keys()):
        key_types = set([type(d.get(key)) for d in dicts])
        key_types.discard(type(None))
        if len(key_types) > 1 and not key_types.issubset([str, unicode]):
            raise ValueError("Cannot merge blobs: type mismatch for ...")
        if any(isinstance(d.get(key), dict) for d in dicts):
            result[key] = merge_dicts(*[d.get(key, {}) for d in dicts])
        elif any(isinstance(d.get(key), list) for d in dicts):
            result[key] = merge_lists(*[d.get(key, []) for d in dicts])
        else:
            if key in ancestor:
                if key in left and key in right and ancestor[key] != left[key] and ancestor[key] != right[key]:
                    raise ValueError("... left and right are both changing ...")
                if key in left and ancestor[key] != left.get(key):
                    result[key] = left[key]
                elif key in right and ancestor[key] != right.get(key):
                    result[key] = right[key]
                else:
                    result[key] = ancestor[key]
            else:
                if key in left and key in right and left[key] != right[key]:
                    raise ValueError("... left and right are both changing ...")
                if key in left:
                    result[key] = left[key]
                elif key in right:
                    result[key] = right[key]
                else:
                    raise KeyError("Couldn't find value for key ...")
    return result
```

The iteration order of the Python `set` of keys is unspecified; we iterate
first occurrences of `ancestor`'s, then `left`'s, then `right`'s keys.
Every property we state is insensitive to this choice: results are compared
with `pyEq` (order-independent) and the per-key claims are stated on the
loop body `mergeKey`.
-/

/-- `key_types` after `discard(type(None))`: the distinct runtime types of
`d.get(key)` over the three documents, with `NoneType` removed (this covers
both absent keys and explicit `None` values). -/
def keyTypes (key : String) (ds : List (List Entry)) : List PyType :=
  ((ds.map (fun d => typeOf (getV key d))).dedup).filter (fun t => !(t == PyType.noneT))

def isStrishT (t : PyType) : Bool :=
  t == PyType.strT || t == PyType.ustrT

/-- `len(key_types) > 1 and not key_types.issubset([str, unicode])`. -/
def typeMismatchAt (key : String) (da dl dr : List Entry) : Bool :=
  decide ((keyTypes key [da, dl, dr]).length > 1)
    && !((keyTypes key [da, dl, dr]).all isStrishT)

theorem sizeOf_getDef_of_isDict {k : String} {d : List Entry}
    (h : isDictV (getV k d) = true) :
    sizeOf (getDef k (PyVal.dict []) d) + 3 ≤ sizeOf d := by
  unfold getV at h
  cases hl : lookupK k d with
  | none => rw [hl] at h; simp [isDictV] at h
  | some v => exact sizeOf_getDef_strict (by rw [hl]; rfl)

mutual

/-- `merge_dicts(ancestor, left, right)`.  A non-mapping argument (only an
explicit `None` value can occur here, via `d.get(key, {})`) fails like
`None.keys()` does. -/
def merge_dicts (ancestor left right : PyVal) : Except MergeErr (List Entry) :=
  match ancestor, left, right with
  | .dict da, .dict dl, .dict dr =>
    mergeKeys da dl dr ((keysOf da ++ keysOf dl ++ keysOf dr).dedup)
  | _, _, _ => .error .attributeError
termination_by (sizeOf ancestor + sizeOf left + sizeOf right, 0)
decreasing_by
  simp_wf
  apply Prod.Lex.left
  omega

/-- The key loop of `merge_dicts`: process each key of the union in turn,
propagating the first failure. -/
def mergeKeys (da dl dr : List Entry) (keys : List String) :
    Except MergeErr (List Entry) :=
  match keys with
  | [] => .ok []
  | key :: rest =>
    match mergeKey da dl dr key with
    | .error e => .error e
    | .ok v =>
      match mergeKeys da dl dr rest with
      | .error e => .error e
      | .ok res => .ok ((key, v) :: res)
termination_by (sizeOf da + sizeOf dl + sizeOf dr, keys.length + 1)
decreasing_by
  · simp_wf
    apply Prod.Lex.right
    omega
  · simp_wf
    apply Prod.Lex.right
    omega

/-- The body of the key loop of `merge_dicts` for one key. -/
def mergeKey (da dl dr : List Entry) (key : String) : Except MergeErr PyVal :=
  if typeMismatchAt key da dl dr then .error (.typeMismatch key)
  else if h : [da, dl, dr].any (fun d => isDictV (getV key d)) then
    match merge_dicts (getDef key (.dict []) da) (getDef key (.dict []) dl)
        (getDef key (.dict []) dr) with
    | .error e => .error e
    | .ok m => .ok (.dict m)
  else if [da, dl, dr].any (fun d => isListV (getV key d)) then
    match merge_lists3 (getDef key (.list []) da) (getDef key (.list []) dl)
        (getDef key (.list []) dr) with
    | .error e => .error e
    | .ok m => .ok (.list m)
  else
    match lookupK key da with
    | some va =>
      if inD key dl && inD key dr && !pyEq va (getV key dl) && !pyEq va (getV key dr)
      then .error (.bothChanged key)
      else if inD key dl && !pyEq va (getV key dl) then .ok (getV key dl)
      else if inD key dr && !pyEq va (getV key dr) then .ok (getV key dr)
      else .ok va
    | none =>
      if inD key dl && inD key dr && !pyEq (getV key dl) (getV key dr)
      then .error (.bothChanged key)
      else if inD key dl then .ok (getV key dl)
      else if inD key dr then .ok (getV key dr)
      else .error (.noValueFound key)
termination_by (sizeOf da + sizeOf dl + sizeOf dr, 1)
decreasing_by
  simp_wf
  apply Prod.Lex.left
  simp [isDictV] at h
  have ha := sizeOf_getDef_le key (PyVal.dict []) da (by simp)
  have hl := sizeOf_getDef_le key (PyVal.dict []) dl (by simp)
  have hr := sizeOf_getDef_le key (PyVal.dict []) dr (by simp)
  rcases h with h | h | h
  · have := sizeOf_getDef_of_isDict (d := da) (k := key) (by simp [isDictV, h])
    omega
  · have := sizeOf_getDef_of_isDict (d := dl) (k := key) (by simp [isDictV, h])
    omega
  · have := sizeOf_getDef_of_isDict (d := dr) (k := key) (by simp [isDictV, h])
    omega

end

/-!
## `createBlob` (base.py lines 20-55)

The twelve entries of `blob_map` map a schema version to the variant class
that interprets it.  Constructing the variant instance
(`blob_map[schema_version](**data)`) happens in modules outside this file;
we represent the chosen variant by its registry tag.
-/

/-- The variant classes registered in `blob_map`. -/
inductive BlobVariant where
  | releaseV1 | releaseV2 | releaseV3 | releaseV4
  | releaseV5 | releaseV6 | releaseV7 | releaseV8
  | desupport | gmpV1 | superBlob | systemAddons
deriving DecidableEq, Repr

def blob_map : List (Int × BlobVariant) :=
  [(1, .releaseV1), (2, .releaseV2), (3, .releaseV3), (4, .releaseV4),
   (5, .releaseV5), (6, .releaseV6), (7, .releaseV7), (8, .releaseV8),
   (50, .desupport), (1000, .gmpV1), (4000, .superBlob), (5000, .systemAddons)]

/-- Python truthiness of a document value (what `if not schema_version`
tests): `None`, `0`, `False`, empty strings and empty containers are falsy. -/
def pyTruthy : PyVal → Bool
  | .str s => !(s == "")
  | .ustr s => !(s == "")
  | .int n => !(n == 0)
  | .bool b => b
  | .null => false
  | .dict d => !d.isEmpty
  | .list l => !l.isEmpty

/-- `schema_version not in blob_map` / `blob_map[schema_version]`:
Python dict membership and indexing compare keys with `==`. -/
def blobMapGet (v : PyVal) : Option BlobVariant :=
  (blob_map.find? (fun e => pyEq v (.int e.1))).map (fun e => e.2)

/-- The two distinct `ValueError`s of `createBlob`:
"schema_version is not set" and "schema_version is unknown". -/
inductive CreateBlobErr where
  | missingVersion
  | unknownVersion
deriving DecidableEq, Repr

/-- `createBlob(data)` on an already-parsed mapping (for string input the
code first JSON-parses; parsing is outside this model). -/
def createBlob (data : List Entry) : Except CreateBlobErr BlobVariant :=
  let schema_version := getV "schema_version" data
  if !pyTruthy schema_version then .error .missingVersion
  else
    match blobMapGet schema_version with
    | none => .error .unknownVersion
    | some variant => .ok variant

/-!
## `Blob.validate` (base.py lines 116-130)

The jsonschema `Draft4Validator` and the variant-specific
`containsForbiddenDomain` hook live outside this module; `validate` takes
them as parameters: `iterErrors b` stands for the complete list
`[e.message for e in validator.iter_errors(self)]` of individual rule
violations, and `forbidden b` for
`self.containsForbiddenDomain(product, whitelistedDomains)`.
-/

inductive ValidateOutcome where
  | ok
  | blobValidationError (message : String) (errors : List String)
  | forbiddenDomainError
deriving DecidableEq, Repr

def validate {α : Type} (iterErrors : α → List String) (forbidden : α → Bool)
    (blob : α) : ValidateOutcome :=
  let errors := iterErrors blob
  if !errors.isEmpty then
    .blobValidationError "Invalid blob! See 'errors' for details." errors
  else if forbidden blob then .forbiddenDomainError
  else .ok

/-!
## Helper lemmas about the registry
-/

theorem blobMapGet_of_mem {n : Int} {v : BlobVariant} (h : (n, v) ∈ blob_map) :
    blobMapGet (.int n) = some v ∧ n ≠ 0 := by
  simp [blob_map] at h
  rcases h with h | h | h | h | h | h | h | h | h | h | h | h <;>
    (obtain ⟨hn, hv⟩ := h; subst hn; subst hv;
     exact ⟨by simp [blobMapGet, blob_map, List.find?, pyEq], by omega⟩)

theorem blobMapGet_of_not_mem {n : Int} (h : ∀ v, (n, v) ∉ blob_map) :
    blobMapGet (.int n) = none := by
  unfold blobMapGet
  cases hf : blob_map.find? (fun e => pyEq (.int n) (.int e.1)) with
  | none => simp
  | some e =>
    exfalso
    have hmem := List.mem_of_find?_eq_some hf
    have hp := List.find?_some hf
    have hn : n = e.1 := by simpa [pyEq] using hp
    exact h e.2 (by rw [hn]; exact hmem)

/-- C6: `validate` fails with a `BlobValidationError` carrying the complete
list of individual violation messages whenever any exist, and in that case
its outcome does not depend on the domain-policy check at all (so a policy
failure can never mask or replace schema failures); the policy check
decides the outcome only when the violation list is empty.  The external
jsonschema validator is abstracted by `iterErrors`, the complete list of
individual violation messages produced by `validator.iter_errors`. -/
theorem validate_reports_all_errors_and_policy_cannot_mask {α : Type}
    (iterErrors : α → List String) (forbidden forbidden' : α → Bool) (b : α) :
    (iterErrors b ≠ [] →
       validate iterErrors forbidden b =
         .blobValidationError "Invalid blob! See 'errors' for details." (iterErrors b) ∧
       validate iterErrors forbidden b = validate iterErrors forbidden' b) ∧
    (iterErrors b = [] →
       validate iterErrors forbidden b =
         (if forbidden b then .forbiddenDomainError else .ok)) := by
  unfold validate
  constructor
  · intro h
    have he : (iterErrors b).isEmpty = false := by
      cases hi : iterErrors b with
      | nil => exact absurd hi h
      | cons x xs => simp
    simp [he]
  · intro h
    simp [h]

theorem validate_reports_all_errors_and_policy_cannot_mask_witness :
    validate (fun (_ : Unit) => ["missing field X", "bad type for Y"]) (fun _ => true) () =
      .blobValidationError "Invalid blob! See 'errors' for details."
        ["missing field X", "bad type for Y"] ∧
    validate (fun (_ : Unit) => ["missing field X", "bad type for Y"]) (fun _ => true) () =
      validate (fun (_ : Unit) => ["missing field X", "bad type for Y"]) (fun _ => false) () ∧
    validate (fun (_ : Unit) => []) (fun _ => true) () = .forbiddenDomainError := by
  have h := validate_reports_all_errors_and_policy_cannot_mask
    (fun (_ : Unit) => ["missing field X", "bad type for Y"]) (fun _ => true) (fun _ => false) ()
  have h2 := validate_reports_all_errors_and_policy_cannot_mask
    (fun (_ : Unit) => ([] : List String)) (fun _ => true) (fun _ => false) ()
  exact ⟨(h.1 (by simp)).1, (h.1 (by simp)).2, by simpa using h2.2 rfl⟩

/-- C7 counterexample: `0` is an integer that is not a registered version,
so by the claim `createBlob` should fail with the unknown-version error; in
fact `0` is falsy, `if not schema_version` fires, and the missing-version
error ("schema_version is not set") is raised instead. -/
theorem createBlob_zero_counterexample :
    (∀ v, ((0 : Int), v) ∉ blob_map) ∧
    createBlob [("schema_version", PyVal.int 0)] = .error .missingVersion ∧
    CreateBlobErr.missingVersion ≠ CreateBlobErr.unknownVersion := by
  refine ⟨?_, ?_, by simp⟩
  · intro v hv
    simp [blob_map] at hv
  · simp [createBlob, getV, lookupK, pyTruthy]

/-- C7 amended: with the `schema_version` field absent `createBlob` fails
with the missing-version error; with an integer value `n` it fails with the
missing-version error when `n = 0` (`0` is falsy, so it is treated like an
absent field), fails with the unknown-version error when `n` is nonzero and
unregistered, and constructs the registered variant when `(n, v)` is in
`blob_map` — a registered version is never reported as missing and never
silently defaulted. -/
theorem createBlob_version_dispatch (data : List Entry) :
    (lookupK "schema_version" data = none →
       createBlob data = .error .missingVersion) ∧
    (∀ n : Int, lookupK "schema_version" data = some (.int n) →
       (n = 0 → createBlob data = .error .missingVersion) ∧
       (n ≠ 0 → (∀ v, (n, v) ∉ blob_map) → createBlob data = .error .unknownVersion) ∧
       (∀ v, (n, v) ∈ blob_map → createBlob data = .ok v)) := by
  constructor
  · intro h
    simp [createBlob, getV, h, pyTruthy]
  · intro n h
    refine ⟨?_, ?_, ?_⟩
    · intro h0
      subst h0
      simp [createBlob, getV, h, pyTruthy]
    · intro hn hnr
      have := blobMapGet_of_not_mem hnr
      simp [createBlob, getV, h, pyTruthy, hn, this]
    · intro v hv
      obtain ⟨hget, hn⟩ := blobMapGet_of_mem hv
      simp [createBlob, getV, h, pyTruthy, hn, hget]

theorem createBlob_version_dispatch_witness :
    createBlob [("other", PyVal.int 3)] = .error .missingVersion ∧
    createBlob [("schema_version", PyVal.int 9)] = .error .unknownVersion ∧
    createBlob [("schema_version", PyVal.int 50)] = .ok .desupport := by
  have h1 := (createBlob_version_dispatch [("other", PyVal.int 3)]).1 (by simp [lookupK])
  have h2 := ((createBlob_version_dispatch [("schema_version", PyVal.int 9)]).2 9
      (by simp [lookupK])).2.1 (by omega) (by intro v hv; simp [blob_map] at hv)
  have h3 := (((createBlob_version_dispatch [("schema_version", PyVal.int 50)]).2 50
      (by simp [lookupK])).2.2) .desupport (by simp [blob_map])
  exact ⟨h1, h2, h3⟩

/-!
## C9: the `KeyError` branch of `merge_dicts` is unreachable
-/

/-- Discriminates the `KeyError("Couldn't find value for key ...")` failure. -/
def isNVF : MergeErr → Bool
  | .noValueFound _ => true
  | _ => false

def isNoValueErr {β : Type} : Except MergeErr β → Bool
  | .error e => isNVF e
  | .ok _ => false

theorem one_le_sizeOf_pyval (v : PyVal) : 1 ≤ sizeOf v := by
  cases v <;> simp_arith

theorem inD_eq_true_iff {key : String} {d : List Entry} :
    inD key d = true ↔ key ∈ keysOf d := by
  induction d with
  | nil => simp [inD, lookupK, keysOf]
  | cons e rest ih =>
    by_cases he : e.1 = key
    · simp [inD, lookupK, keysOf, he]
    · simp only [inD, lookupK, keysOf] at *
      simp [he, ih]
      intro h
      exact absurd h.symm he

theorem mem_union_keys {k : String} {da dl dr : List Entry}
    (hk : k ∈ (keysOf da ++ keysOf dl ++ keysOf dr).dedup) :
    inD k da = true ∨ inD k dl = true ∨ inD k dr = true := by
  rw [List.mem_dedup] at hk
  simp only [List.mem_append] at hk
  rcases hk with (h | h) | h
  · exact Or.inl (inD_eq_true_iff.mpr h)
  · exact Or.inr (Or.inl (inD_eq_true_iff.mpr h))
  · exact Or.inr (Or.inr (inD_eq_true_iff.mpr h))

theorem asPyList_cases (x : PyVal) :
    (∃ l, asPyList x = .ok l) ∨ asPyList x = .error .typeError := by
  cases x <;> simp [asPyList]

theorem merge_lists3_not_nvf (x y z : PyVal) :
    isNoValueErr (merge_lists3 x y z) = false := by
  rcases asPyList_cases x with ⟨lx, hx⟩ | hx <;>
    rcases asPyList_cases y with ⟨ly, hy⟩ | hy <;>
      rcases asPyList_cases z with ⟨lz, hz⟩ | hz <;>
        simp [merge_lists3, hx, hy, hz, isNoValueErr, isNVF, Except.bind, bind,
          pure, Except.pure]

theorem mergeKey_not_nvf (da dl dr : List Entry) (key : String)
    (hmem : inD key da = true ∨ inD key dl = true ∨ inD key dr = true)
    (hrec : isNoValueErr (merge_dicts (getDef key (.dict []) da)
      (getDef key (.dict []) dl) (getDef key (.dict []) dr)) = false) :
    isNoValueErr (mergeKey da dl dr key) = false := by
  rw [mergeKey.eq_def]
  split
  · simp [isNoValueErr, isNVF]
  · split
    · -- nested-mapping branch
      split
      · rename_i e heq
        rw [heq] at hrec
        simpa [isNoValueErr] using hrec
      · simp [isNoValueErr]
    · split
      · -- nested-sequence branch
        split
        · rename_i e heq
          have hx := merge_lists3_not_nvf (getDef key (.list []) da)
            (getDef key (.list []) dl) (getDef key (.list []) dr)
          rw [heq] at hx
          simpa [isNoValueErr] using hx
        · simp [isNoValueErr]
      · -- scalar branch
        split
        · -- key in ancestor
          split
          · simp [isNoValueErr, isNVF]
          · split
            · simp [isNoValueErr]
            · split
              · simp [isNoValueErr]
              · simp [isNoValueErr]
        · -- key not in ancestor
          rename_i heq
          split
          · simp [isNoValueErr, isNVF]
          · split
            · simp [isNoValueErr]
            · split
              · simp [isNoValueErr]
              · rename_i hcb hdl hdr
                exfalso
                have hda : inD key da = false := by simp [inD, heq]
                rcases hmem with h | h | h
                · rw [h] at hda
                  cases hda
                · exact hdl h
                · exact hdr h

theorem mergeKeys_not_nvf (da dl dr : List Entry) (keys : List String)
    (hmem : ∀ k ∈ keys, inD k da = true ∨ inD k dl = true ∨ inD k dr = true)
    (hrec : ∀ k ∈ keys, isNoValueErr (merge_dicts (getDef k (.dict []) da)
      (getDef k (.dict []) dl) (getDef k (.dict []) dr)) = false) :
    isNoValueErr (mergeKeys da dl dr keys) = false := by
  induction keys with
  | nil =>
    rw [mergeKeys.eq_def]
    simp [isNoValueErr]
  | cons key rest ih =>
    rw [mergeKeys.eq_def]
    have hk := mergeKey_not_nvf da dl dr key (hmem key (by simp))
      (hrec key (by simp))
    cases hm : mergeKey da dl dr key with
    | error e =>
      rw [hm] at hk
      simpa [isNoValueErr, hm] using hk
    | ok v =>
      have hrest := ih (fun k hkk => hmem k (by simp [hkk]))
        (fun k hkk => hrec k (by simp [hkk]))
      cases hr : mergeKeys da dl dr rest with
      | error e =>
        rw [hr] at hrest
        simpa [isNoValueErr, hm, hr] using hrest
      | ok res => simp [hm, hr, isNoValueErr]

theorem merge_dicts_nvf_aux :
    ∀ (N : Nat) (a l r : PyVal), sizeOf a + sizeOf l + sizeOf r ≤ N →
      isNoValueErr (merge_dicts a l r) = false := by
  intro N
  induction N with
  | zero =>
    intro a l r h
    have := one_le_sizeOf_pyval a
    omega
  | succ N ih =>
    intro a l r hle
    rw [merge_dicts.eq_def]
    split
    · rename_i da dl dr
      simp at hle
      apply mergeKeys_not_nvf
      · intro k hk
        exact mem_union_keys hk
      · intro k hk
        rcases mem_union_keys hk with h | h | h
        · have h1 := sizeOf_getDef_strict (k := k) (d := da) (f := .dict [])
            (by simpa [inD] using h)
          have h2 := sizeOf_getDef_le k (.dict []) dl (by simp)
          have h3 := sizeOf_getDef_le k (.dict []) dr (by simp)
          apply ih
          omega
        · have h1 := sizeOf_getDef_le k (.dict []) da (by simp)
          have h2 := sizeOf_getDef_strict (k := k) (d := dl) (f := .dict [])
            (by simpa [inD] using h)
          have h3 := sizeOf_getDef_le k (.dict []) dr (by simp)
          apply ih
          omega
        · have h1 := sizeOf_getDef_le k (.dict []) da (by simp)
          have h2 := sizeOf_getDef_le k (.dict []) dl (by simp)
          have h3 := sizeOf_getDef_strict (k := k) (d := dr) (f := .dict [])
            (by simpa [inD] using h)
          apply ih
          omega
    · simp [isNoValueErr, isNVF]

/-- C9: the `KeyError("Couldn't find value for key ...")` branch of
`merge_dicts` is unreachable: every key the loop iterates over comes from
the union of the three key sets, so in the scalar case with the key absent
from `ancestor` it is present in `left` or in `right`, and no call of
`merge_dicts` (on any inputs, conflicts or crashes included) ever returns
the no-value-found error. -/
theorem merge_dicts_never_noValueFound (a l r : PyVal) :
    isNoValueErr (merge_dicts a l r) = false :=
  merge_dicts_nvf_aux (sizeOf a + sizeOf l + sizeOf r) a l r (Nat.le_refl _)

/-!
## C5 / C10: the per-key type-compatibility check
-/

theorem isDictV_eq_false_of_scalar {v : PyVal} (h : isScalar v = true) :
    isDictV v = false := by
  cases v <;> simp_all [isScalar, isDictV]

theorem isListV_eq_false_of_scalar {v : PyVal} (h : isScalar v = true) :
    isListV v = false := by
  cases v <;> simp_all [isScalar, isListV]

theorem merge_lists3_error {x y z : PyVal} {e : MergeErr}
    (h : merge_lists3 x y z = .error e) : e = .typeError := by
  rcases asPyList_cases x with ⟨lx, hx⟩ | hx <;>
    rcases asPyList_cases y with ⟨ly, hy⟩ | hy <;>
      rcases asPyList_cases z with ⟨lz, hz⟩ | hz <;>
        simp_all [merge_lists3, Except.bind, bind, pure, Except.pure]

/-- If the type check for a key passes and no document holds a mapping at
that key, the body of the key loop cannot produce a type-mismatch error
(for this or any other key name): the remaining branches only raise
both-changed, no-value-found or the sequence-branch type error. -/
theorem mergeKey_typeMismatch_only_from_check (da dl dr : List Entry) (key : String)
    (h1 : typeMismatchAt key da dl dr = false)
    (h2 : [da, dl, dr].any (fun d => isDictV (getV key d)) = false) :
    ∀ k, mergeKey da dl dr key ≠ .error (.typeMismatch k) := by
  intro k
  rw [mergeKey.eq_def]
  simp only [h1, Bool.false_eq_true, if_false, h2, dite_false]
  split
  · -- sequence branch
    split
    · rename_i e heq
      intro hx
      have := merge_lists3_error heq
      simp at hx
      rw [hx] at this
      cases this
    · simp
  · -- scalar branch
    split
    · split
      · simp
      · split
        · simp
        · split
          · simp
          · simp
    · split
      · simp
      · split
        · simp
        · split
          · simp
          · simp

theorem length_le_one_of_nodup_const {ts : List PyType} {t : PyType}
    (hnd : ts.Nodup) (hall : ∀ x ∈ ts, x = t) : ts.length ≤ 1 := by
  cases ts with
  | nil => simp
  | cons a rest =>
    cases rest with
    | nil => simp
    | cons b rest2 =>
      exfalso
      have ha := hall a (by simp)
      have hb := hall b (by simp)
      rw [List.nodup_cons] at hnd
      exact hnd.1 (by simp [ha, hb])

theorem mem_keyTypes {x : PyType} {key : String} {ds : List (List Entry)} :
    x ∈ keyTypes key ds ↔ ((∃ d ∈ ds, typeOf (getV key d) = x) ∧ x ≠ .noneT) := by
  unfold keyTypes
  rw [List.mem_filter, List.mem_dedup, List.mem_map]
  simp

theorem keyTypes_nodup (key : String) (ds : List (List Entry)) :
    (keyTypes key ds).Nodup :=
  List.Nodup.filter _ (List.nodup_dedup _)

theorem isDictV_eq_false_of_typeOf_ne {v : PyVal} (h : typeOf v ≠ .dictT) :
    isDictV v = false := by
  cases v <;> simp_all [typeOf, isDictV]

/-- C10: in the type-compatibility check an explicit `None` value is
treated exactly like an absent key — `key_types.discard(type(None))`
removes its type from the comparison set.  Hence whenever all the non-null,
present values at a key share one runtime type `t`, the check passes, and
(for non-mapping `t`, where no recursive merge can occur) no type-mismatch
conflict is raised while processing that key; in particular merging
ancestor `{"k": None}`, left `{"k": 5}`, right `{}` succeeds with
`{"k": 5}`. -/
theorem null_treated_as_absent (key : String) (da dl dr : List Entry) (t : PyType)
    (ht : t ≠ PyType.noneT)
    (hall : ∀ d ∈ [da, dl, dr], lookupK key d = none ∨
      (∃ v, lookupK key d = some v ∧ (typeOf v = t ∨ v = PyVal.null))) :
    typeMismatchAt key da dl dr = false ∧
    (t ≠ PyType.dictT → ∀ k, mergeKey da dl dr key ≠ .error (.typeMismatch k)) ∧
    merge_dicts (.dict [("k", PyVal.null)]) (.dict [("k", PyVal.int 5)]) (.dict [])
      = .ok [("k", PyVal.int 5)] := by
  have hsub : ∀ x ∈ keyTypes key [da, dl, dr], x = t := by
    intro x hx
    rw [mem_keyTypes] at hx
    obtain ⟨⟨d, hd, hxd⟩, hxn⟩ := hx
    rcases hall d hd with h | ⟨v, hv, hvt | hvn⟩
    · exfalso
      apply hxn
      rw [← hxd]
      simp [getV, h, typeOf]
    · rw [← hxd]
      simp [getV, hv, hvt]
    · exfalso
      apply hxn
      rw [← hxd]
      simp [getV, hv, hvn, typeOf]
  have hlen := length_le_one_of_nodup_const (keyTypes_nodup key [da, dl, dr]) hsub
  have hgt : ¬ ((keyTypes key [da, dl, dr]).length > 1) := by omega
  have hmis : typeMismatchAt key da dl dr = false := by
    simp [typeMismatchAt, hgt]
  refine ⟨hmis, ?_, ?_⟩
  · intro htd
    apply mergeKey_typeMismatch_only_from_check da dl dr key hmis
    rw [List.any_eq_false]
    intro d hd
    rcases hall d hd with h | ⟨v, hv, hvt | hvn⟩
    · simp [getV, h, isDictV]
    · have hvd : typeOf v ≠ .dictT := by rw [hvt]; exact htd
      simp [getV, hv, isDictV_eq_false_of_typeOf_ne hvd]
    · simp [getV, hv, hvn, isDictV]
  · simp [merge_dicts, mergeKeys, mergeKey, typeMismatchAt, keyTypes, keysOf, getV,
      getDef, lookupK, inD, typeOf, isDictV, isListV, pyEq, isStrishT]

theorem null_treated_as_absent_witness :
    typeMismatchAt "k" [("k", PyVal.null)] [("k", PyVal.int 5)] [] = false ∧
    mergeKey [("k", PyVal.null)] [("k", PyVal.int 5)] [] "k"
      ≠ .error (.typeMismatch "k") ∧
    merge_dicts (.dict [("k", PyVal.null)]) (.dict [("k", PyVal.int 5)]) (.dict [])
      = .ok [("k", PyVal.int 5)] := by
  have h := null_treated_as_absent "k" [("k", PyVal.null)] [("k", PyVal.int 5)] []
    PyType.intT (by simp) (by
      intro d hd
      simp at hd
      rcases hd with h | h | h <;> subst h
      · exact Or.inr ⟨PyVal.null, by simp [lookupK], Or.inr rfl⟩
      · exact Or.inr ⟨PyVal.int 5, by simp [lookupK], Or.inl rfl⟩
      · exact Or.inl (by simp [lookupK]))
  exact ⟨h.1, h.2.1 (by simp) "k", h.2.2⟩

/-- C5 counterexample: with ancestor `{"k": None}`, left `{"k": 5}` and
right `{}`, the runtime types of the values present at "k" (ignoring only
the document where the key is absent, as the claim words it) are NoneType
and int — more than one distinct type and not all textual — so the claim
requires a type-mismatch failure; the code instead also discards the
explicit null's type and the merge succeeds. -/
theorem type_mismatch_ignores_null_counterexample :
    lookupK "k" [("k", PyVal.null)] = some PyVal.null ∧
    lookupK "k" [("k", PyVal.int 5)] = some (PyVal.int 5) ∧
    lookupK "k" ([] : List Entry) = none ∧
    typeOf PyVal.null ≠ typeOf (PyVal.int 5) ∧
    (¬ (isStrishT (typeOf PyVal.null) = true ∧ isStrishT (typeOf (PyVal.int 5)) = true)) ∧
    merge_dicts (.dict [("k", PyVal.null)]) (.dict [("k", PyVal.int 5)]) (.dict [])
      = .ok [("k", PyVal.int 5)] := by
  refine ⟨by simp [lookupK], by simp [lookupK], by simp [lookupK],
    by simp [typeOf], by simp [isStrishT, typeOf], ?_⟩
  simp [merge_dicts, mergeKeys, mergeKey, typeMismatchAt, keyTypes, keysOf, getV,
    getDef, lookupK, inD, typeOf, isDictV, isListV, pyEq, isStrishT]

/-- C5 amended: the check discards NoneType — covering explicit null values
as well as absent keys — and then fails with a type-mismatch naming the key
exactly when more than one distinct type remains and the remainder is not
all textual (`typeMismatchAt`); when the check passes and no document holds
a mapping at the key, processing the key can raise no type-mismatch
conflict at all (with a mapping present, recursive merging may still report
a type-mismatch for a nested key). -/
theorem type_mismatch_check_amended (key : String) (da dl dr : List Entry) :
    (typeMismatchAt key da dl dr = true →
       mergeKey da dl dr key = .error (.typeMismatch key)) ∧
    (typeMismatchAt key da dl dr = false →
       [da, dl, dr].any (fun d => isDictV (getV key d)) = false →
       ∀ k, mergeKey da dl dr key ≠ .error (.typeMismatch k)) := by
  constructor
  · intro h
    rw [mergeKey.eq_def]
    simp [h]
  · exact mergeKey_typeMismatch_only_from_check da dl dr key

theorem type_mismatch_check_amended_witness :
    mergeKey [("k", PyVal.int 1)] [("k", PyVal.str "a")] [] "k"
      = .error (.typeMismatch "k") ∧
    mergeKey [("k", PyVal.int 1)] [("k", PyVal.int 2)] [] "k"
      ≠ .error (.typeMismatch "k") := by
  have h1 := (type_mismatch_check_amended "k" [("k", PyVal.int 1)]
      [("k", PyVal.str "a")] []).1 (by
    simp [typeMismatchAt, keyTypes, getV, lookupK, typeOf, isStrishT])
  have h2 := (type_mismatch_check_amended "k" [("k", PyVal.int 1)]
      [("k", PyVal.int 2)] []).2 (by
    simp [typeMismatchAt, keyTypes, getV, lookupK, typeOf, isStrishT]) (by
    simp [getV, lookupK, isDictV]) "k"
  exact ⟨h1, h2⟩

/-!
## C1: the both-changed conflict for a key present in the ancestor
-/

/-- C1 counterexample: ancestor `{"k": 1}`, left `{"k": 2}`, right
`{"k": 2}` — both sides change "k" to the *same* new value, yet the merge
raises the same-key-changed-by-both conflict (line 82 compares each side
only against the ancestor, never left against right). -/
theorem both_changed_same_value_counterexample :
    pyEq (PyVal.int 2) (PyVal.int 2) = true ∧
    merge_dicts (.dict [("k", PyVal.int 1)]) (.dict [("k", PyVal.int 2)])
      (.dict [("k", PyVal.int 2)]) = .error (.bothChanged "k") := by
  constructor
  · simp [pyEq]
  · simp [merge_dicts, mergeKeys, mergeKey, typeMismatchAt, keyTypes, keysOf, getV,
      getDef, lookupK, inD, typeOf, isDictV, isListV, pyEq, isStrishT]

/-- C1 amended: for a key present in ancestor, left and right with scalar
values (type check passing), the same-key-changed-by-both conflict is
raised **iff** left's and right's values both differ from the ancestor's —
whether or not they differ from each other; in particular two sides
changing the key to the same new value still conflict. -/
theorem bothChanged_iff_both_differ_from_ancestor
    (key : String) (da dl dr : List Entry) (va vl vr : PyVal)
    (ha : lookupK key da = some va) (hl : lookupK key dl = some vl)
    (hr : lookupK key dr = some vr)
    (hsa : isScalar va = true) (hsl : isScalar vl = true) (hsr : isScalar vr = true)
    (htc : typeMismatchAt key da dl dr = false) :
    (mergeKey da dl dr key = .error (.bothChanged key) ↔
       (pyEq va vl = false ∧ pyEq va vr = false)) ∧
    (pyEq va vl = false → pyEq va vr = false → pyEq vl vr = true →
       mergeKey da dl dr key = .error (.bothChanged key)) := by
  have hda : getV key da = va := by simp [getV, ha]
  have hdl : getV key dl = vl := by simp [getV, hl]
  have hdr : getV key dr = vr := by simp [getV, hr]
  have hnodict : [da, dl, dr].any (fun d => isDictV (getV key d)) = false := by
    simp [hda, hdl, hdr, isDictV_eq_false_of_scalar hsa,
      isDictV_eq_false_of_scalar hsl, isDictV_eq_false_of_scalar hsr]
  have hnolist : [da, dl, dr].any (fun d => isListV (getV key d)) = false := by
    simp [hda, hdl, hdr, isListV_eq_false_of_scalar hsa,
      isListV_eq_false_of_scalar hsl, isListV_eq_false_of_scalar hsr]
  have hmain : mergeKey da dl dr key =
      (if pyEq va vl = false ∧ pyEq va vr = false
       then .error (.bothChanged key)
       else if pyEq va vl = false then .ok vl
       else if pyEq va vr = false then .ok vr
       else .ok va) := by
    rw [mergeKey.eq_def]
    simp only [htc, Bool.false_eq_true, if_false, hnodict, Bool.false_eq_true,
      dite_false, hnolist, Bool.false_eq_true, if_false, ha]
    simp [inD, hl, hr, hda, hdl, hdr]
  constructor
  · rw [hmain]
    by_cases h1 : pyEq va vl = false ∧ pyEq va vr = false
    · simp [h1]
    · rw [if_neg h1]
      constructor
      · intro hx
        exfalso
        split at hx
        · simp_all
        · split at hx <;> simp_all
      · intro hx
        exact absurd hx h1
  · intro h1 h2 _
    rw [hmain, if_pos ⟨h1, h2⟩]

theorem bothChanged_iff_both_differ_from_ancestor_witness :
    mergeKey [("k", PyVal.int 1)] [("k", PyVal.int 2)] [("k", PyVal.int 2)] "k"
      = .error (.bothChanged "k") ∧
    mergeKey [("k", PyVal.int 1)] [("k", PyVal.int 1)] [("k", PyVal.int 3)] "k"
      ≠ .error (.bothChanged "k") := by
  have h1 := (bothChanged_iff_both_differ_from_ancestor "k"
      [("k", PyVal.int 1)] [("k", PyVal.int 2)] [("k", PyVal.int 2)]
      (PyVal.int 1) (PyVal.int 2) (PyVal.int 2)
      (by simp [lookupK]) (by simp [lookupK]) (by simp [lookupK])
      (by simp [isScalar]) (by simp [isScalar]) (by simp [isScalar])
      (by simp [typeMismatchAt, keyTypes, getV, lookupK, typeOf, isStrishT])).2
    (by simp [pyEq]) (by simp [pyEq]) (by simp [pyEq])
  have h2 := (bothChanged_iff_both_differ_from_ancestor "k"
      [("k", PyVal.int 1)] [("k", PyVal.int 1)] [("k", PyVal.int 3)]
      (PyVal.int 1) (PyVal.int 1) (PyVal.int 3)
      (by simp [lookupK]) (by simp [lookupK]) (by simp [lookupK])
      (by simp [isScalar]) (by simp [isScalar]) (by simp [isScalar])
      (by simp [typeMismatchAt, keyTypes, getV, lookupK, typeOf, isStrishT])).1
  refine ⟨h1, ?_⟩
  intro hx
  have := h2.mp hx
  simp [pyEq] at this

/-!
## C4: the sequence merge
-/

theorem firstEq_some {i r : PyVal} {res : List PyVal}
    (h : firstEq i res = some r) : r ∈ res ∧ pyEq r i = true :=
  ⟨List.mem_of_find?_eq_some h, by simpa using List.find?_some h⟩

theorem mem_mergeStep_of_mem {y : PyVal} {res : List PyVal} {i : PyVal}
    (h : y ∈ res) : y ∈ mergeStep res i := by
  unfold mergeStep
  split
  · simp [h]
  · split
    · exact h
    · simp [h]

theorem mergeStep_has (res : List PyVal) (i : PyVal) :
    ∃ y ∈ mergeStep res i, y = i ∨ pyEq y i = true := by
  unfold mergeStep
  cases hf : firstEq i res with
  | none => exact ⟨i, by simp, Or.inl rfl⟩
  | some r =>
    by_cases hi : isinst i (typeOf r) = true
    · exact ⟨r, by simp [hi, (firstEq_some hf).1], Or.inr (firstEq_some hf).2⟩
    · exact ⟨i, by simp [hi], Or.inl rfl⟩

theorem mem_foldl_mergeStep_of_mem {y : PyVal} (l : List PyVal) (res : List PyVal)
    (h : y ∈ res) : y ∈ l.foldl mergeStep res := by
  induction l generalizing res with
  | nil => exact h
  | cons i rest ih => exact ih (mergeStep res i) (mem_mergeStep_of_mem h)

theorem foldl_mergeStep_has {x : PyVal} (l : List PyVal) (res : List PyVal)
    (hx : x ∈ l) :
    ∃ y ∈ l.foldl mergeStep res, y = x ∨ pyEq y x = true := by
  induction l generalizing res with
  | nil => simp at hx
  | cons i rest ih =>
    rcases List.mem_cons.mp hx with h | h
    · subst h
      obtain ⟨y, hy, hyx⟩ := mergeStep_has res x
      exact ⟨y, mem_foldl_mergeStep_of_mem rest _ hy, hyx⟩
    · exact ih _ h

theorem mem_outer_foldl_of_mem {y : PyVal} (lists : List (List PyVal))
    (res : List PyVal) (h : y ∈ res) :
    y ∈ lists.foldl (fun res l => l.foldl mergeStep res) res := by
  induction lists generalizing res with
  | nil => exact h
  | cons l rest ih => exact ih _ (mem_foldl_mergeStep_of_mem l res h)

theorem outer_foldl_has {x : PyVal} {l : List PyVal}
    (lists : List (List PyVal)) (res : List PyVal)
    (hl : l ∈ lists) (hx : x ∈ l) :
    ∃ y ∈ lists.foldl (fun res l => l.foldl mergeStep res) res,
      y = x ∨ pyEq y x = true := by
  induction lists generalizing res with
  | nil => simp at hl
  | cons l0 rest ih =>
    simp only [List.foldl_cons]
    rcases List.mem_cons.mp hl with h | h
    · obtain ⟨y, hy, hyx⟩ := foldl_mergeStep_has l0 res (h ▸ hx)
      exact ⟨y, mem_outer_foldl_of_mem rest _ hy, hyx⟩
    · exact ih (List.foldl mergeStep res l0) h

/-- C4 counterexample: `True == 1` but `type(True) = bool ≠ int = type(1)`,
so by the claim a boolean equal to an already-kept integer should be
appended as well; in Python 2 `isinstance(True, int)` holds (`bool` is a
subclass of `int`), so `merge_lists` drops it. -/
theorem merge_lists_bool_after_int_counterexample :
    pyEq (PyVal.int 1) (PyVal.bool true) = true ∧
    typeOf (PyVal.bool true) ≠ typeOf (PyVal.int 1) ∧
    merge_lists [[PyVal.int 1], [PyVal.bool true], []] = [PyVal.int 1] := by
  refine ⟨by simp [pyEq], by simp [typeOf], ?_⟩
  simp [merge_lists, mergeStep, firstEq, pyEq, isinst, typeOf]

/-- C4 amended: `merge_lists` walks the sequences in order and appends an
element exactly when no already-appended element is `==` to it, or when the
element is **not an instance of** the first equal element's runtime type
(so distinct-typed equal values such as `"x"` and `u"x"` are both kept, but
a boolean equal to an already-kept integer is not re-added, `bool` being a
subclass of `int`); every element of every input sequence is present in the
result by Python value equality (the element itself, or an `==`-equal one);
and the end-to-end example merges to `["x", "y", "z"]`. -/
theorem merge_lists_amended :
    (∀ (res : List PyVal) (i : PyVal),
       (firstEq i res = none → mergeStep res i = res ++ [i]) ∧
       (∀ r, firstEq i res = some r → isinst i (typeOf r) = false →
          mergeStep res i = res ++ [i]) ∧
       (∀ r, firstEq i res = some r → isinst i (typeOf r) = true →
          mergeStep res i = res)) ∧
    (∀ (lists : List (List PyVal)) (l : List PyVal) (x : PyVal),
       l ∈ lists → x ∈ l →
       ∃ y ∈ merge_lists lists, y = x ∨ pyEq y x = true) ∧
    merge_lists [[PyVal.str "x"], [PyVal.str "x", PyVal.str "y"],
        [PyVal.str "x", PyVal.str "z"]]
      = [PyVal.str "x", PyVal.str "y", PyVal.str "z"] := by
  refine ⟨?_, ?_, ?_⟩
  · intro res i
    refine ⟨?_, ?_, ?_⟩
    · intro h; simp [mergeStep, h]
    · intro r hr hi; simp [mergeStep, hr, hi]
    · intro r hr hi; simp [mergeStep, hr, hi]
  · intro lists l x hl hx
    exact outer_foldl_has lists [] hl hx
  · simp [merge_lists, mergeStep, firstEq, pyEq, isinst, typeOf]

theorem merge_lists_amended_witness :
    mergeStep [] (PyVal.int 1) = [PyVal.int 1] ∧
    (∃ y ∈ merge_lists [[PyVal.int 1], [PyVal.bool true]],
       y = PyVal.bool true ∨ pyEq y (PyVal.bool true) = true) := by
  constructor
  · have h := (merge_lists_amended.1 [] (PyVal.int 1)).1 (by simp [firstEq])
    simpa using h
  · exact merge_lists_amended.2.1 [[PyVal.int 1], [PyVal.bool true]]
      [PyVal.bool true] (PyVal.bool true) (by simp) (by simp)

/-!
## C2 / C3: one-sided changes and idempotence

`merge(a, a, r) == r`, `merge(a, l, a) == l` and `merge(a, a, a) == a` do
not hold for arbitrary documents (deleted keys are resurrected from the
ancestor and sequence merge deduplicates/unions); the predicates below
carve out the changes for which a one-sided merge does win.
-/

/-- The conditions under which the scalar branch reproduces the changed
side's value: equal runtime types, both textual, or one side null. -/
def ScalarCompat (va vb : PyVal) : Prop :=
  typeOf va = typeOf vb ∨
    (isStrishT (typeOf va) = true ∧ isStrishT (typeOf vb) = true) ∨
    va = .null ∨ vb = .null

/-- Walking `s` with the `merge_lists` inner loop starting from `res`
appends every element: each one either has no `==`-equal element yet or is
not an instance of the first `==`-equal element's type. -/
inductive AddAll : List PyVal → List PyVal → Prop where
  | nil {res : List PyVal} : AddAll res []
  | cons {res : List PyVal} {i : PyVal} {rest : List PyVal} :
      (firstEq i res = none ∨
        ∃ r, firstEq i res = some r ∧ isinst i (typeOf r) = false) →
      AddAll (res ++ [i]) rest → AddAll res (i :: rest)

mutual

/-- Value-level relation: `b` is obtainable from `a` by a change that a
one-sided merge reproduces exactly. -/
inductive VExt : PyVal → PyVal → Prop where
  | dict {da db : List Entry} : DExt da db → VExt (.dict da) (.dict db)
  | list {A B S : List PyVal} :
      List.Pairwise (fun x y => pyEq x y = false) A →
      B = A ++ S → AddAll A S → VExt (.list A) (.list B)
  | scalar {va vb : PyVal} : isScalar va = true → isScalar vb = true →
      ScalarCompat va vb → VExt va vb

/-- Dictionary-level relation: `b` keeps every key of `a` (with `VExt`
values) and may add keys whose values satisfy `VNew`. -/
inductive DExt : List Entry → List Entry → Prop where
  | mk {a b : List Entry} :
      (∀ k, inD k a = true → inD k b = true) →
      (∀ k va vb, lookupK k a = some va → lookupK k b = some vb → VExt va vb) →
      (∀ k vb, lookupK k a = none → lookupK k b = some vb → VNew vb) →
      DExt a b

/-- A value introduced at a key absent from the ancestor that an add-only
merge reproduces exactly. -/
inductive VNew : PyVal → Prop where
  | dict {d : List Entry} : DExt [] d → VNew (.dict d)
  | list {B : List PyVal} : AddAll [] B → VNew (.list B)
  | scalar {v : PyVal} : isScalar v = true → VNew v

end

/-- Well-formed documents: dicts have distinct keys (Python dicts cannot
hold duplicates), recursively. -/
inductive WFV : PyVal → Prop where
  | scalar {v : PyVal} : isScalar v = true → WFV v
  | dict {d : List Entry} : (keysOf d).Nodup → (∀ e ∈ d, WFV e.2) →
      WFV (.dict d)
  | list {l : List PyVal} : (∀ x ∈ l, WFV x) → WFV (.list l)

/-- No sequence anywhere in the document holds two `==`-equal elements
(sequence merge deduplicates such elements, breaking idempotence). -/
inductive SeqOK : PyVal → Prop where
  | scalar {v : PyVal} : isScalar v = true → SeqOK v
  | dict {d : List Entry} : (∀ e ∈ d, SeqOK e.2) → SeqOK (.dict d)
  | list {l : List PyVal} :
      List.Pairwise (fun x y => pyEq x y = false) l → (∀ x ∈ l, SeqOK x) →
      SeqOK (.list l)

theorem pyEq_refl_scalar {v : PyVal} (h : isScalar v = true) :
    pyEq v v = true := by
  cases v <;> simp_all [isScalar, pyEq]

theorem isinst_self (v : PyVal) : isinst v (typeOf v) = true := by
  simp [isinst]

theorem lookupK_some_mem {k : String} {d : List Entry} {v : PyVal}
    (h : lookupK k d = some v) : (k, v) ∈ d := by
  induction d with
  | nil => simp [lookupK] at h
  | cons e rest ih =>
    simp only [lookupK] at h
    by_cases he : e.1 = k
    · simp [he] at h
      have hev : (k, v) = e := by cases e; simp_all
      rw [hev]
      exact List.mem_cons_self _ _
    · simp [he] at h
      exact List.mem_cons_of_mem _ (ih h)

theorem lookupK_eq_of_mem_nodup {k : String} {d : List Entry} {v : PyVal}
    (hnd : (keysOf d).Nodup) (hm : (k, v) ∈ d) : lookupK k d = some v := by
  induction d with
  | nil => simp at hm
  | cons e rest ih =>
    simp only [keysOf, List.map_cons, List.nodup_cons] at hnd
    rcases List.mem_cons.mp hm with h | h
    · rw [← h]
      simp [lookupK]
    · have hk : e.1 ≠ k := by
        intro hek
        apply hnd.1
        rw [hek]
        exact List.mem_map.mpr ⟨(k, v), h, rfl⟩
      simp [lookupK, hk]
      exact ih hnd.2 h

theorem pyEqDictSub_cons_some {e : Entry} {rest d2 : List Entry} {w : PyVal}
    (hw : lookupK e.1 d2 = some w) :
    pyEqDictSub (e :: rest) d2 = (pyEq e.2 w && pyEqDictSub rest d2) := by
  conv_lhs => rw [pyEqDictSub.eq_def]
  split
  · rename_i heq
    cases heq
  · rename_i e2 rest2 heq
    injection heq with h1 h2
    subst h1
    subst h2
    split
    · rename_i w2 heq2
      rw [hw] at heq2
      cases heq2
      rfl
    · rename_i heq2
      rw [heq2] at hw
      cases hw

theorem pyEqDictSub_intro : ∀ {l d : List Entry},
    (∀ e ∈ l, ∃ w, lookupK e.1 d = some w ∧ pyEq e.2 w = true) →
    pyEqDictSub l d = true := by
  intro l
  induction l with
  | nil => intro d _; simp [pyEqDictSub]
  | cons e rest ih =>
    intro d h
    obtain ⟨w, hw, hpe⟩ := h e (by simp)
    have hrest := ih (fun x hx => h x (by simp [hx]))
    rw [pyEqDictSub_cons_some hw]
    simp [hpe, hrest]

theorem pyEqList_refl : ∀ {l : List PyVal},
    (∀ x ∈ l, pyEq x x = true) → pyEqList l l = true := by
  intro l
  induction l with
  | nil => simp [pyEqList]
  | cons x rest ih =>
    intro h
    simp [pyEqList, h x (by simp), ih (fun y hy => h y (by simp [hy]))]

theorem pyEq_refl {v : PyVal} (h : WFV v) : pyEq v v = true := by
  induction h with
  | scalar hs => exact pyEq_refl_scalar hs
  | @dict d hnd hvals ih =>
    have hsub : pyEqDictSub d d = true :=
      pyEqDictSub_intro (fun e he =>
        ⟨e.2, lookupK_eq_of_mem_nodup hnd he, ih e he⟩)
    simp [pyEq, hsub]
  | @list l hvals ih =>
    have := pyEqList_refl ih
    simp [pyEq, this]

/-- Builds Python dict equality from a length match and key-wise lookup. -/
theorem pyEq_dict_intro {m b : List Entry} (hlen : m.length = b.length)
    (hsub : ∀ e ∈ m, ∃ w, lookupK e.1 b = some w ∧ pyEq e.2 w = true) :
    pyEq (.dict m) (.dict b) = true := by
  simp [pyEq, hlen, pyEqDictSub_intro hsub]

theorem firstEq_append_none {i : PyVal} {xs ys : List PyVal}
    (h1 : firstEq i xs = none) : firstEq i (xs ++ ys) = firstEq i ys := by
  induction xs with
  | nil => simp
  | cons x xs' ih =>
    simp only [firstEq, List.cons_append, List.find?_cons] at h1 ⊢
    cases hp : pyEq x i with
    | true => simp [hp] at h1
    | false =>
      simp only [hp, cond_false] at h1 ⊢
      exact ih h1

theorem firstEq_append_some {i r : PyVal} {xs ys : List PyVal}
    (h1 : firstEq i xs = some r) : firstEq i (xs ++ ys) = some r := by
  induction xs with
  | nil => simp [firstEq] at h1
  | cons x xs' ih =>
    simp only [firstEq, List.cons_append, List.find?_cons] at h1 ⊢
    cases hp : pyEq x i with
    | true => simpa [hp] using h1
    | false =>
      simp only [hp, cond_false] at h1 ⊢
      exact ih h1

theorem firstEq_self {A : List PyVal} {a : PyVal}
    (hpw : List.Pairwise (fun x y => pyEq x y = false) A)
    (ha : a ∈ A) (hrefl : pyEq a a = true) : firstEq a A = some a := by
  induction A with
  | nil => simp at ha
  | cons x A' ih =>
    rcases List.mem_cons.mp ha with h | h
    · rw [h]
      simp only [firstEq, List.find?_cons]
      rw [h] at hrefl
      simp [hrefl]
    · have hx : pyEq x a = false := (List.pairwise_cons.mp hpw).1 a h
      simp only [firstEq, List.find?_cons, hx, cond_false]
      exact ih (List.pairwise_cons.mp hpw).2 h

theorem walk_fresh : ∀ (A res : List PyVal),
    (∀ x ∈ A, firstEq x res = none) →
    List.Pairwise (fun x y => pyEq x y = false) A →
    A.foldl mergeStep res = res ++ A := by
  intro A
  induction A with
  | nil => intro res _ _; simp
  | cons a A' ih =>
    intro res hnone hpw
    simp only [List.foldl_cons]
    have hstep : mergeStep res a = res ++ [a] := by
      simp [mergeStep, hnone a (by simp)]
    rw [hstep, ih (res ++ [a]) ?_ (List.pairwise_cons.mp hpw).2]
    · simp
    · intro x hx
      have h1 := hnone x (by simp [hx])
      have h2 : pyEq a x = false := (List.pairwise_cons.mp hpw).1 x hx
      rw [firstEq_append_none h1]
      simp [firstEq, List.find?_cons, h2]

theorem walk_skip : ∀ (A RES : List PyVal),
    (∀ x ∈ A, ∃ r, firstEq x RES = some r ∧ isinst x (typeOf r) = true) →
    A.foldl mergeStep RES = RES := by
  intro A
  induction A with
  | nil => intro RES _; simp
  | cons a A' ih =>
    intro RES h
    obtain ⟨r, hr, hi⟩ := h a (by simp)
    simp only [List.foldl_cons]
    have hstep : mergeStep RES a = RES := by simp [mergeStep, hr, hi]
    rw [hstep]
    exact ih RES (fun x hx => h x (by simp [hx]))

theorem walk_append : ∀ {S RES : List PyVal}, AddAll RES S →
    S.foldl mergeStep RES = RES ++ S := by
  intro S RES h
  induction h with
  | nil => simp
  | @cons res i rest hcond hrest ih =>
    simp only [List.foldl_cons]
    have hstep : mergeStep res i = res ++ [i] := by
      rcases hcond with h | ⟨r, hr, hi⟩
      · simp [mergeStep, h]
      · simp [mergeStep, hr, hi]
    rw [hstep, ih]
    simp

/-- The three-list walks of `merge_lists` as called by `merge_dicts`, when
the right (resp. left) side only appends to a duplicate-free ancestor
sequence. -/
theorem merge_lists_oneSided {A B S : List PyVal}
    (hpw : List.Pairwise (fun x y => pyEq x y = false) A)
    (hBS : B = A ++ S)
    (hadd : AddAll A S)
    (hrefl : ∀ x ∈ A, pyEq x x = true) :
    merge_lists [A, A, B] = B ∧ merge_lists [A, B, A] = B := by
  have h1 : A.foldl mergeStep [] = A := by
    simpa using walk_fresh A [] (by simp [firstEq]) hpw
  have hskipAA : A.foldl mergeStep A = A :=
    walk_skip A A (fun x hx => ⟨x, firstEq_self hpw hx (hrefl x hx), isinst_self x⟩)
  have hwalkB : B.foldl mergeStep A = B := by
    rw [hBS, List.foldl_append, hskipAA]
    exact walk_append hadd
  have hskipAB : A.foldl mergeStep B = B := by
    rw [hBS]
    exact walk_skip A (A ++ S) (fun x hx =>
      ⟨x, firstEq_append_some (firstEq_self hpw hx (hrefl x hx)), isinst_self x⟩)
  constructor
  · show List.foldl _ [] [A, A, B] = B
    simp only [List.foldl_cons, List.foldl_nil]
    rw [h1, hskipAA, hwalkB]
  · show List.foldl _ [] [A, B, A] = B
    simp only [List.foldl_cons, List.foldl_nil]
    rw [h1, hwalkB, hskipAB]

theorem typeMismatchAt_false_of_const {key : String} {da dl dr : List Entry}
    {t : PyType} (hall : ∀ x ∈ keyTypes key [da, dl, dr], x = t) :
    typeMismatchAt key da dl dr = false := by
  have hlen := length_le_one_of_nodup_const (keyTypes_nodup key [da, dl, dr]) hall
  have hgt : ¬ ((keyTypes key [da, dl, dr]).length > 1) := by omega
  simp [typeMismatchAt, hgt]

theorem typeMismatchAt_false_of_strish {key : String} {da dl dr : List Entry}
    (hall : ∀ x ∈ keyTypes key [da, dl, dr], isStrishT x = true) :
    typeMismatchAt key da dl dr = false := by
  have h : (keyTypes key [da, dl, dr]).all isStrishT = true :=
    List.all_eq_true.mpr hall
  simp [typeMismatchAt, h]

theorem mergeKeys_ok_of_forall : ∀ {da dl dr : List Entry} {keys : List String},
    (∀ k ∈ keys, ∃ v, mergeKey da dl dr k = .ok v) →
    ∃ m, mergeKeys da dl dr keys = .ok m ∧ keysOf m = keys ∧
      ∀ e ∈ m, mergeKey da dl dr e.1 = .ok e.2 := by
  intro da dl dr keys
  induction keys with
  | nil =>
    intro _
    exact ⟨[], by rw [mergeKeys.eq_def], by simp [keysOf], by simp⟩
  | cons k rest ih =>
    intro h
    obtain ⟨v, hv⟩ := h k (by simp)
    obtain ⟨m, hm, hkeysm, hvals⟩ := ih (fun k2 hk2 => h k2 (by simp [hk2]))
    refine ⟨(k, v) :: m, ?_, by simp [keysOf] at hkeysm ⊢; exact hkeysm, ?_⟩
    · rw [mergeKeys.eq_def]
      simp [hv, hm]
    · intro e he
      rcases List.mem_cons.mp he with h1 | h1
      · rw [h1]
        exact hv
      · exact hvals e h1

theorem length_eq_of_nodup_mem_iff {l1 l2 : List String} (h1 : l1.Nodup)
    (h2 : l2.Nodup) (hiff : ∀ x, x ∈ l1 ↔ x ∈ l2) : l1.length = l2.length := by
  have hp : l1.Perm l2 := by
    apply List.perm_of_nodup_nodup_toFinset_eq h1 h2
    ext x
    simp [List.mem_toFinset, hiff x]
  exact hp.length_eq

theorem keyTypes_mem_cases {x : PyType} {k : String} {d1 d2 d3 : List Entry}
    (hx : x ∈ keyTypes k [d1, d2, d3]) :
    (x = typeOf (getV k d1) ∨ x = typeOf (getV k d2) ∨ x = typeOf (getV k d3)) ∧
      x ≠ .noneT := by
  rw [mem_keyTypes] at hx
  obtain ⟨⟨d, hd, hxd⟩, hxn⟩ := hx
  refine ⟨?_, hxn⟩
  simp only [List.mem_cons, List.not_mem_nil, or_false] at hd
  rcases hd with h | h | h <;> subst h
  · exact Or.inl hxd.symm
  · exact Or.inr (Or.inl hxd.symm)
  · exact Or.inr (Or.inr hxd.symm)

/-- The type check passes when each value present at the key has type `t`
or is null/absent. -/
theorem typeMismatchAt_false_of_vals {k : String} {d1 d2 d3 : List Entry}
    {t : PyType}
    (h1 : typeOf (getV k d1) = t ∨ typeOf (getV k d1) = .noneT)
    (h2 : typeOf (getV k d2) = t ∨ typeOf (getV k d2) = .noneT)
    (h3 : typeOf (getV k d3) = t ∨ typeOf (getV k d3) = .noneT) :
    typeMismatchAt k d1 d2 d3 = false := by
  apply typeMismatchAt_false_of_const (t := t)
  intro x hx
  obtain ⟨hc, hn⟩ := keyTypes_mem_cases hx
  rcases hc with hh | hh | hh <;> subst hh
  · rcases h1 with h | h
    · exact h
    · exact absurd h hn
  · rcases h2 with h | h
    · exact h
    · exact absurd h hn
  · rcases h3 with h | h
    · exact h
    · exact absurd h hn

/-- The type check passes when each value present at the key is textual
or null/absent (`issubset([str, unicode])`). -/
theorem typeMismatchAt_false_of_vals_strish {k : String} {d1 d2 d3 : List Entry}
    (h1 : isStrishT (typeOf (getV k d1)) = true ∨ typeOf (getV k d1) = .noneT)
    (h2 : isStrishT (typeOf (getV k d2)) = true ∨ typeOf (getV k d2) = .noneT)
    (h3 : isStrishT (typeOf (getV k d3)) = true ∨ typeOf (getV k d3) = .noneT) :
    typeMismatchAt k d1 d2 d3 = false := by
  apply typeMismatchAt_false_of_strish
  intro x hx
  obtain ⟨hc, hn⟩ := keyTypes_mem_cases hx
  rcases hc with hh | hh | hh <;> subst hh
  · rcases h1 with h | h
    · exact h
    · exact absurd h hn
  · rcases h2 with h | h
    · exact h
    · exact absurd h hn
  · rcases h3 with h | h
    · exact h
    · exact absurd h hn

/-- One-sided merges per key: assuming the statement of the master lemma
for smaller inputs (`ih`), processing any key of the union for the triples
`(a, a, b)` and `(a, b, a)` succeeds and returns a value Python-equal to
`b`'s value at that key. -/
theorem perkey_ext (N : Nat)
    (ih : ∀ a b : List Entry, sizeOf a + sizeOf b ≤ N → WFV (.dict b) → DExt a b →
      (∃ m, merge_dicts (.dict a) (.dict a) (.dict b) = .ok m ∧
         pyEq (.dict m) (.dict b) = true) ∧
      (∃ m, merge_dicts (.dict a) (.dict b) (.dict a) = .ok m ∧
         pyEq (.dict m) (.dict b) = true))
    (a b : List Entry) (hle : sizeOf a + sizeOf b ≤ N + 1)
    (hwf : WFV (.dict b))
    (hkeys : ∀ k, inD k a = true → inD k b = true)
    (hshared : ∀ k va vb, lookupK k a = some va → lookupK k b = some vb → VExt va vb)
    (hnew : ∀ k vb, lookupK k a = none → lookupK k b = some vb → VNew vb)
    (k : String) (hkb : inD k b = true) :
    (∃ v, mergeKey a a b k = .ok v ∧ ∃ w, lookupK k b = some w ∧ pyEq v w = true) ∧
    (∃ v, mergeKey a b a k = .ok v ∧ ∃ w, lookupK k b = some w ∧ pyEq v w = true) := by
  have hbvals : ∀ e ∈ b, WFV e.2 := by
    cases hwf with
    | scalar h => simp [isScalar] at h
    | dict hnd hv => exact hv
  obtain ⟨vb, hvb⟩ : ∃ vb, lookupK k b = some vb := by
    cases hx : lookupK k b with
    | none => simp [inD, hx] at hkb
    | some vb => exact ⟨vb, rfl⟩
  have hwb : WFV vb := hbvals (k, vb) (lookupK_some_mem hvb)
  have hgvb : getV k b = vb := by simp [getV, hvb]
  cases hva : lookupK k a with
  | some va =>
    have hgva : getV k a = va := by simp [getV, hva]
    have hina : inD k a = true := by simp [inD, hva]
    have hvext := hshared k va vb hva hvb
    cases hvext with
    | @dict das dbs hdext =>
      have hs1 := sizeOf_lookupK hva
      have hs2 := sizeOf_lookupK hvb
      simp at hs1 hs2
      obtain ⟨⟨m1, hm1, hpe1⟩, ⟨m2, hm2, hpe2⟩⟩ :=
        ih das dbs (by omega) hwb hdext
      have hga : getDef k (.dict []) a = .dict das := by simp [getDef, hva]
      have hgb : getDef k (.dict []) b = .dict dbs := by simp [getDef, hvb]
      have htc1 : typeMismatchAt k a a b = false :=
        typeMismatchAt_false_of_vals (t := .dictT)
          (Or.inl (by rw [hgva]; rfl)) (Or.inl (by rw [hgva]; rfl))
          (Or.inl (by rw [hgvb]; rfl))
      have htc2 : typeMismatchAt k a b a = false :=
        typeMismatchAt_false_of_vals (t := .dictT)
          (Or.inl (by rw [hgva]; rfl)) (Or.inl (by rw [hgvb]; rfl))
          (Or.inl (by rw [hgva]; rfl))
      have hany1 : [a, a, b].any (fun d => isDictV (getV k d)) = true := by
        simp [hgva, isDictV]
      have hany2 : [a, b, a].any (fun d => isDictV (getV k d)) = true := by
        simp [hgva, isDictV]
      refine ⟨⟨.dict m1, ?_, .dict dbs, hvb, hpe1⟩,
        ⟨.dict m2, ?_, .dict dbs, hvb, hpe2⟩⟩
      · rw [mergeKey.eq_def]
        simp [htc1, hany1, hga, hgb, hm1]
      · rw [mergeKey.eq_def]
        simp [htc2, hany2, hga, hgb, hm2]
    | @list A B S hpw hBS hadd =>
      have hrefl : ∀ x ∈ A, pyEq x x = true := by
        intro x hx
        apply pyEq_refl
        cases hwb with
        | scalar h => simp [isScalar] at h
        | list hv => exact hv x (by rw [hBS]; exact List.mem_append_left _ hx)
      obtain ⟨hL1, hL2⟩ := merge_lists_oneSided hpw hBS hadd hrefl
      have hga : getDef k (.list []) a = .list A := by simp [getDef, hva]
      have hgb : getDef k (.list []) b = .list B := by simp [getDef, hvb]
      have htc1 : typeMismatchAt k a a b = false :=
        typeMismatchAt_false_of_vals (t := .listT)
          (Or.inl (by rw [hgva]; rfl)) (Or.inl (by rw [hgva]; rfl))
          (Or.inl (by rw [hgvb]; rfl))
      have htc2 : typeMismatchAt k a b a = false :=
        typeMismatchAt_false_of_vals (t := .listT)
          (Or.inl (by rw [hgva]; rfl)) (Or.inl (by rw [hgvb]; rfl))
          (Or.inl (by rw [hgva]; rfl))
      have hnd1 : [a, a, b].any (fun d => isDictV (getV k d)) = false := by
        simp [hgva, hgvb, isDictV]
      have hnd2 : [a, b, a].any (fun d => isDictV (getV k d)) = false := by
        simp [hgva, hgvb, isDictV]
      have hnl1 : [a, a, b].any (fun d => isListV (getV k d)) = true := by
        simp [hgva, isListV]
      have hnl2 : [a, b, a].any (fun d => isListV (getV k d)) = true := by
        simp [hgva, isListV]
      have hml1 : merge_lists3 (.list A) (.list A) (.list B) = .ok B := by
        simp [merge_lists3, asPyList, bind, Except.bind, pure, Except.pure, hL1]
      have hml2 : merge_lists3 (.list A) (.list B) (.list A) = .ok B := by
        simp [merge_lists3, asPyList, bind, Except.bind, pure, Except.pure, hL2]
      have hreflB : pyEq (.list B) (.list B) = true := pyEq_refl hwb
      refine ⟨⟨.list B, ?_, .list B, hvb, hreflB⟩,
        ⟨.list B, ?_, .list B, hvb, hreflB⟩⟩
      · rw [mergeKey.eq_def]
        simp [htc1, hnd1, hnl1, hga, hgb, hml1]
      · rw [mergeKey.eq_def]
        simp [htc2, hnd2, hnl2, hga, hgb, hml2]
    | scalar hsa hsb hcompat =>
      have hreflva : pyEq va va = true := pyEq_refl_scalar hsa
      have hreflvb : pyEq vb vb = true := pyEq_refl_scalar hsb
      have htcs : typeMismatchAt k a a b = false ∧ typeMismatchAt k a b a = false := by
        rcases hcompat with h | ⟨h1, h2⟩ | h | h
        · constructor <;>
            exact typeMismatchAt_false_of_vals (t := typeOf vb)
              (by rw [hgva, h]; exact Or.inl rfl) (by simp [hgva, hgvb, h])
              (by simp [hgva, hgvb, h])
        · constructor <;>
            exact typeMismatchAt_false_of_vals_strish
              (by rw [hgva]; exact Or.inl h1) (by simp [hgva, hgvb, h1, h2])
              (by simp [hgva, hgvb, h1, h2])
        · constructor <;>
            exact typeMismatchAt_false_of_vals (t := typeOf vb)
              (by rw [hgva, h]; exact Or.inr rfl) (by simp [hgva, hgvb, h, typeOf])
              (by simp [hgva, hgvb, h, typeOf])
        · constructor <;>
            exact typeMismatchAt_false_of_vals (t := typeOf va)
              (by rw [hgva]; exact Or.inl rfl) (by simp [hgva, hgvb, h, typeOf])
              (by simp [hgva, hgvb, h, typeOf])
      obtain ⟨htc1, htc2⟩ := htcs
      have hnd1 : [a, a, b].any (fun d => isDictV (getV k d)) = false := by
        simp [hgva, hgvb, isDictV_eq_false_of_scalar hsa,
          isDictV_eq_false_of_scalar hsb]
      have hnd2 : [a, b, a].any (fun d => isDictV (getV k d)) = false := by
        simp [hgva, hgvb, isDictV_eq_false_of_scalar hsa,
          isDictV_eq_false_of_scalar hsb]
      have hnl1 : [a, a, b].any (fun d => isListV (getV k d)) = false := by
        simp [hgva, hgvb, isListV_eq_false_of_scalar hsa,
          isListV_eq_false_of_scalar hsb]
      have hnl2 : [a, b, a].any (fun d => isListV (getV k d)) = false := by
        simp [hgva, hgvb, isListV_eq_false_of_scalar hsa,
          isListV_eq_false_of_scalar hsb]
      by_cases heq : pyEq va vb = true
      · refine ⟨⟨va, ?_, vb, hvb, heq⟩, ⟨va, ?_, vb, hvb, heq⟩⟩
        · rw [mergeKey.eq_def]
          simp [htc1, hnd1, hnl1, hva, inD, hvb, hgva, hgvb, heq, hreflva]
        · rw [mergeKey.eq_def]
          simp [htc2, hnd2, hnl2, hva, inD, hvb, hgva, hgvb, heq, hreflva]
      · refine ⟨⟨vb, ?_, vb, hvb, hreflvb⟩, ⟨vb, ?_, vb, hvb, hreflvb⟩⟩
        · rw [mergeKey.eq_def]
          simp [htc1, hnd1, hnl1, hva, inD, hvb, hgva, hgvb, heq, hreflva]
        · rw [mergeKey.eq_def]
          simp [htc2, hnd2, hnl2, hva, inD, hvb, hgva, hgvb, heq, hreflva]
  | none =>
    have hgva : getV k a = .null := by simp [getV, hva]
    have hina : inD k a = false := by simp [inD, hva]
    have hvnew := hnew k vb hva hvb
    cases hvnew with
    | @dict dbs hdext0 =>
      have hs2 := sizeOf_lookupK hvb
      simp at hs2
      have hsa := one_le_sizeOf_list a
      obtain ⟨⟨m1, hm1, hpe1⟩, ⟨m2, hm2, hpe2⟩⟩ :=
        ih [] dbs (by simp; omega) hwb hdext0
      have hga : getDef k (.dict []) a = .dict [] := by simp [getDef, hva]
      have hgb : getDef k (.dict []) b = .dict dbs := by simp [getDef, hvb]
      have htc1 : typeMismatchAt k a a b = false :=
        typeMismatchAt_false_of_vals (t := .dictT)
          (Or.inr (by rw [hgva]; rfl)) (Or.inr (by rw [hgva]; rfl))
          (Or.inl (by rw [hgvb]; rfl))
      have htc2 : typeMismatchAt k a b a = false :=
        typeMismatchAt_false_of_vals (t := .dictT)
          (Or.inr (by rw [hgva]; rfl)) (Or.inl (by rw [hgvb]; rfl))
          (Or.inr (by rw [hgva]; rfl))
      have hany1 : [a, a, b].any (fun d => isDictV (getV k d)) = true := by
        simp [hgvb, isDictV]
      have hany2 : [a, b, a].any (fun d => isDictV (getV k d)) = true := by
        simp [hgvb, isDictV]
      refine ⟨⟨.dict m1, ?_, .dict dbs, hvb, hpe1⟩,
        ⟨.dict m2, ?_, .dict dbs, hvb, hpe2⟩⟩
      · rw [mergeKey.eq_def]
        simp [htc1, hany1, hga, hgb, hm1]
      · rw [mergeKey.eq_def]
        simp [htc2, hany2, hga, hgb, hm2]
    | @list B hadd0 =>
      have h1 : merge_lists [[], [], B] = B := by
        simp only [merge_lists, List.foldl_cons, List.foldl_nil]
        rw [walk_append hadd0]
        simp
      have h2 : merge_lists [[], B, []] = B := by
        simp only [merge_lists, List.foldl_cons, List.foldl_nil]
        rw [walk_append hadd0]
        simp
      have hga : getDef k (.list []) a = .list [] := by simp [getDef, hva]
      have hgb : getDef k (.list []) b = .list B := by simp [getDef, hvb]
      have htc1 : typeMismatchAt k a a b = false :=
        typeMismatchAt_false_of_vals (t := .listT)
          (Or.inr (by rw [hgva]; rfl)) (Or.inr (by rw [hgva]; rfl))
          (Or.inl (by rw [hgvb]; rfl))
      have htc2 : typeMismatchAt k a b a = false :=
        typeMismatchAt_false_of_vals (t := .listT)
          (Or.inr (by rw [hgva]; rfl)) (Or.inl (by rw [hgvb]; rfl))
          (Or.inr (by rw [hgva]; rfl))
      have hnd1 : [a, a, b].any (fun d => isDictV (getV k d)) = false := by
        simp [hgva, hgvb, isDictV]
      have hnd2 : [a, b, a].any (fun d => isDictV (getV k d)) = false := by
        simp [hgva, hgvb, isDictV]
      have hnl1 : [a, a, b].any (fun d => isListV (getV k d)) = true := by
        simp [hgvb, isListV]
      have hnl2 : [a, b, a].any (fun d => isListV (getV k d)) = true := by
        simp [hgvb, isListV]
      have hml1 : merge_lists3 (.list []) (.list []) (.list B) = .ok B := by
        simp [merge_lists3, asPyList, bind, Except.bind, pure, Except.pure, h1]
      have hml2 : merge_lists3 (.list []) (.list B) (.list []) = .ok B := by
        simp [merge_lists3, asPyList, bind, Except.bind, pure, Except.pure, h2]
      have hreflB : pyEq (.list B) (.list B) = true := pyEq_refl hwb
      refine ⟨⟨.list B, ?_, .list B, hvb, hreflB⟩,
        ⟨.list B, ?_, .list B, hvb, hreflB⟩⟩
      · rw [mergeKey.eq_def]
        simp [htc1, hnd1, hnl1, hga, hgb, hml1]
      · rw [mergeKey.eq_def]
        simp [htc2, hnd2, hnl2, hga, hgb, hml2]
    | scalar hsb =>
      have hreflvb : pyEq vb vb = true := pyEq_refl_scalar hsb
      have htc1 : typeMismatchAt k a a b = false :=
        typeMismatchAt_false_of_vals (t := typeOf vb)
          (Or.inr (by rw [hgva]; rfl)) (Or.inr (by rw [hgva]; rfl))
          (Or.inl (by rw [hgvb]))
      have htc2 : typeMismatchAt k a b a = false :=
        typeMismatchAt_false_of_vals (t := typeOf vb)
          (Or.inr (by rw [hgva]; rfl)) (Or.inl (by rw [hgvb]))
          (Or.inr (by rw [hgva]; rfl))
      have hnd1 : [a, a, b].any (fun d => isDictV (getV k d)) = false := by
        simp [hgva, hgvb, isDictV_eq_false_of_scalar hsb,
          show isDictV PyVal.null = false from rfl]
      have hnd2 : [a, b, a].any (fun d => isDictV (getV k d)) = false := by
        simp [hgva, hgvb, isDictV_eq_false_of_scalar hsb,
          show isDictV PyVal.null = false from rfl]
      have hnl1 : [a, a, b].any (fun d => isListV (getV k d)) = false := by
        simp [hgva, hgvb, isListV_eq_false_of_scalar hsb,
          show isListV PyVal.null = false from rfl]
      have hnl2 : [a, b, a].any (fun d => isListV (getV k d)) = false := by
        simp [hgva, hgvb, isListV_eq_false_of_scalar hsb,
          show isListV PyVal.null = false from rfl]
      refine ⟨⟨vb, ?_, vb, hvb, hreflvb⟩, ⟨vb, ?_, vb, hvb, hreflvb⟩⟩
      · rw [mergeKey.eq_def]
        simp [htc1, hnd1, hnl1, hva, inD, hvb, hgvb]
      · rw [mergeKey.eq_def]
        simp [htc2, hnd2, hnl2, hva, inD, hvb, hgvb]

/-- Master lemma: when `b` extends `a` (per `DExt`), merging `(a, a, b)` or
`(a, b, a)` succeeds and the result is Python-equal to `b`. -/
theorem merge_ext_master : ∀ (N : Nat) (a b : List Entry),
    sizeOf a + sizeOf b ≤ N → WFV (.dict b) → DExt a b →
    (∃ m, merge_dicts (.dict a) (.dict a) (.dict b) = .ok m ∧
       pyEq (.dict m) (.dict b) = true) ∧
    (∃ m, merge_dicts (.dict a) (.dict b) (.dict a) = .ok m ∧
       pyEq (.dict m) (.dict b) = true) := by
  intro N
  induction N with
  | zero =>
    intro a b h _ _
    have ha := one_le_sizeOf_list a
    have hb := one_le_sizeOf_list b
    omega
  | succ N ih =>
    intro a b hle hwf hext
    obtain ⟨hkeys, hshared, hnew⟩ := hext
    have hbnd : (keysOf b).Nodup := by
      cases hwf with
      | scalar h => simp [isScalar] at h
      | dict hnd _ => exact hnd
    have perkey := perkey_ext N ih a b hle hwf hkeys hshared hnew
    constructor
    · have hforall : ∀ k2 ∈ (keysOf a ++ keysOf a ++ keysOf b).dedup,
          ∃ v, mergeKey a a b k2 = .ok v := by
        intro k2 hk2
        have hkb : inD k2 b = true := by
          rcases mem_union_keys hk2 with h | h | h
          · exact hkeys k2 h
          · exact hkeys k2 h
          · exact h
        obtain ⟨v, hv, _⟩ := (perkey k2 hkb).1
        exact ⟨v, hv⟩
      obtain ⟨m, hm, hkeysm, hvals⟩ := mergeKeys_ok_of_forall hforall
      refine ⟨m, ?_, ?_⟩
      · rw [merge_dicts.eq_def]
        exact hm
      · apply pyEq_dict_intro
        · have hml : m.length = (keysOf a ++ keysOf a ++ keysOf b).dedup.length := by
            rw [← hkeysm]; simp [keysOf]
          have hbl : (keysOf b).length = b.length := by simp [keysOf]
          rw [hml, ← hbl]
          apply length_eq_of_nodup_mem_iff (List.nodup_dedup _) hbnd
          intro x
          constructor
          · intro hx
            rcases mem_union_keys hx with h | h | h
            · exact inD_eq_true_iff.mp (hkeys x h)
            · exact inD_eq_true_iff.mp (hkeys x h)
            · exact inD_eq_true_iff.mp h
          · intro hx
            rw [List.mem_dedup]
            exact List.mem_append_right _ hx
        · intro e he
          have hkmem : e.1 ∈ (keysOf a ++ keysOf a ++ keysOf b).dedup := by
            rw [← hkeysm]
            exact List.mem_map.mpr ⟨e, he, rfl⟩
          have hkb : inD e.1 b = true := by
            rcases mem_union_keys hkmem with h | h | h
            · exact hkeys _ h
            · exact hkeys _ h
            · exact h
          obtain ⟨v, hv, w, hw, hpe⟩ := (perkey e.1 hkb).1
          have he2 : e.2 = v := by
            have hx := hvals e he
            rw [hv] at hx
            injection hx with h2
            exact h2.symm
          rw [he2]
          exact ⟨w, hw, hpe⟩
    · have hforall : ∀ k2 ∈ (keysOf a ++ keysOf b ++ keysOf a).dedup,
          ∃ v, mergeKey a b a k2 = .ok v := by
        intro k2 hk2
        have hkb : inD k2 b = true := by
          rcases mem_union_keys hk2 with h | h | h
          · exact hkeys k2 h
          · exact h
          · exact hkeys k2 h
        obtain ⟨v, hv, _⟩ := (perkey k2 hkb).2
        exact ⟨v, hv⟩
      obtain ⟨m, hm, hkeysm, hvals⟩ := mergeKeys_ok_of_forall hforall
      refine ⟨m, ?_, ?_⟩
      · rw [merge_dicts.eq_def]
        exact hm
      · apply pyEq_dict_intro
        · have hml : m.length = (keysOf a ++ keysOf b ++ keysOf a).dedup.length := by
            rw [← hkeysm]; simp [keysOf]
          have hbl : (keysOf b).length = b.length := by simp [keysOf]
          rw [hml, ← hbl]
          apply length_eq_of_nodup_mem_iff (List.nodup_dedup _) hbnd
          intro x
          constructor
          · intro hx
            rcases mem_union_keys hx with h | h | h
            · exact inD_eq_true_iff.mp (hkeys x h)
            · exact inD_eq_true_iff.mp h
            · exact inD_eq_true_iff.mp (hkeys x h)
          · intro hx
            rw [List.mem_dedup]
            exact List.mem_append_left _ (List.mem_append_right _ hx)
        · intro e he
          have hkmem : e.1 ∈ (keysOf a ++ keysOf b ++ keysOf a).dedup := by
            rw [← hkeysm]
            exact List.mem_map.mpr ⟨e, he, rfl⟩
          have hkb : inD e.1 b = true := by
            rcases mem_union_keys hkmem with h | h | h
            · exact hkeys _ h
            · exact h
            · exact hkeys _ h
          obtain ⟨v, hv, w, hw, hpe⟩ := (perkey e.1 hkb).2
          have he2 : e.2 = v := by
            have hx := hvals e he
            rw [hv] at hx
            injection hx with h2
            exact h2.symm
          rw [he2]
          exact ⟨w, hw, hpe⟩

theorem vext_self {v : PyVal} (hwf : WFV v) : SeqOK v → VExt v v := by
  induction hwf with
  | scalar hs =>
    intro _
    exact VExt.scalar hs hs (Or.inl rfl)
  | @dict d hnd hvals ih =>
    intro hseq
    have hsv : ∀ e ∈ d, SeqOK e.2 := by
      cases hseq with
      | scalar h => simp [isScalar] at h
      | dict hs => exact hs
    refine VExt.dict (DExt.mk (fun k h => h) ?_ ?_)
    · intro k va vb h1 h2
      rw [h1] at h2
      injection h2 with h2
      subst h2
      exact ih (k, va) (lookupK_some_mem h1) (hsv (k, va) (lookupK_some_mem h1))
    · intro k vb h1 h2
      rw [h1] at h2
      cases h2
  | @list l hvals ih =>
    intro hseq
    cases hseq with
    | scalar h => simp [isScalar] at h
    | list hpw hsx =>
      exact VExt.list hpw (List.append_nil l).symm AddAll.nil

theorem dext_self {d : List Entry} (hwf : WFV (.dict d))
    (hseq : SeqOK (.dict d)) : DExt d d := by
  have h := vext_self hwf hseq
  cases h with
  | dict h => exact h
  | scalar h1 h2 h3 => simp [isScalar] at h1

/-- C2 counterexample: a one-sided deletion does not win.  With ancestor
and left `{"k": 1}` and right `{}` (right deletes the key), the merge keeps
the ancestor's value instead of returning right. -/
theorem one_sided_delete_counterexample :
    merge_dicts (.dict [("k", PyVal.int 1)]) (.dict [("k", PyVal.int 1)])
      (.dict []) = .ok [("k", PyVal.int 1)] ∧
    pyEq (.dict [("k", PyVal.int 1)]) (.dict []) = false := by
  constructor
  · simp [merge_dicts, mergeKeys, mergeKey, typeMismatchAt, keyTypes, keysOf, getV,
      getDef, lookupK, inD, typeOf, isDictV, isListV, pyEq, isStrishT]
  · simp [pyEq]

/-- C2 amended: a one-sided change wins cleanly when the changed side
extends the ancestor (`DExt`): it deletes no keys, keeps each shared key's
value kind (scalars type-compatibly, allowing textual variants and null),
recursively extends nested mappings, and modifies sequences only by
appending to a duplicate-free ancestor sequence; the result then equals the
changed side under Python equality.  Deletions and other sequence edits are
not reproduced (see the counterexample — the value is resurrected from the
ancestor). -/
theorem merge_one_sided_wins (a b : List Entry) (hwf : WFV (.dict b))
    (hext : DExt a b) :
    (∃ m, merge_dicts (.dict a) (.dict a) (.dict b) = .ok m ∧
       pyEq (.dict m) (.dict b) = true) ∧
    (∃ m, merge_dicts (.dict a) (.dict b) (.dict a) = .ok m ∧
       pyEq (.dict m) (.dict b) = true) :=
  merge_ext_master (sizeOf a + sizeOf b) a b (Nat.le_refl _) hwf hext

theorem merge_one_sided_wins_witness :
    (∃ m, merge_dicts (.dict [("x", PyVal.int 1)])
       (.dict [("x", PyVal.int 1)])
       (.dict [("x", PyVal.int 2), ("y", PyVal.str "s")]) = .ok m ∧
       pyEq (.dict m) (.dict [("x", PyVal.int 2), ("y", PyVal.str "s")]) = true) ∧
    (∃ m, merge_dicts (.dict [("x", PyVal.int 1)])
       (.dict [("x", PyVal.int 2), ("y", PyVal.str "s")])
       (.dict [("x", PyVal.int 1)]) = .ok m ∧
       pyEq (.dict m) (.dict [("x", PyVal.int 2), ("y", PyVal.str "s")]) = true) := by
  have hwf : WFV (.dict [("x", PyVal.int 2), ("y", PyVal.str "s")]) := by
    apply WFV.dict
    · simp [keysOf]
    · intro e he
      simp at he
      rcases he with h | h <;> rw [h] <;> exact WFV.scalar rfl
  have hext : DExt [("x", PyVal.int 1)] [("x", PyVal.int 2), ("y", PyVal.str "s")] := by
    refine DExt.mk ?_ ?_ ?_
    · intro k h
      by_cases hk : "x" = k <;> simp [inD, lookupK, hk] at h ⊢
    · intro k va vb h1 h2
      by_cases hk : "x" = k
      · simp [lookupK, hk] at h1 h2
        rw [← h1, ← h2]
        exact VExt.scalar rfl rfl (Or.inl rfl)
      · simp [lookupK, hk] at h1
    · intro k vb h1 h2
      by_cases hk : "x" = k
      · simp [lookupK, hk] at h1
      · simp [lookupK, hk] at h1 h2
        by_cases hy : "y" = k
        · simp [hy] at h2
          rw [← h2]
          exact VNew.scalar rfl
        · simp [hy] at h2
  exact merge_one_sided_wins [("x", PyVal.int 1)]
    [("x", PyVal.int 2), ("y", PyVal.str "s")] hwf hext

/-- C3 counterexample: with `a = {"k": [1, 1]}` (a sequence with repeated
elements, as the claim explicitly allows), `merge(a, a, a)` deduplicates
the sequence and returns `{"k": [1]}`, which is not equal to `a`. -/
theorem merge_self_duplicate_counterexample :
    merge_dicts (.dict [("k", PyVal.list [PyVal.int 1, PyVal.int 1])])
      (.dict [("k", PyVal.list [PyVal.int 1, PyVal.int 1])])
      (.dict [("k", PyVal.list [PyVal.int 1, PyVal.int 1])])
      = .ok [("k", PyVal.list [PyVal.int 1])] ∧
    pyEq (.dict [("k", PyVal.list [PyVal.int 1])])
      (.dict [("k", PyVal.list [PyVal.int 1, PyVal.int 1])]) = false := by
  constructor
  · simp [merge_dicts, mergeKeys, mergeKey, typeMismatchAt, keyTypes, keysOf, getV,
      getDef, lookupK, inD, typeOf, isDictV, isListV, isStrishT,
      merge_lists3, asPyList, bind, Except.bind, pure, Except.pure,
      merge_lists, mergeStep, firstEq, pyEq, isinst]
  · simp [pyEq, pyEqDictSub, pyEqList, lookupK]

/-- C3 amended: `merge(a, a, a)` is Python-equal to `a` for every
well-formed document `a` none of whose sequences (at any nesting depth
inside mappings) contains two `==`-equal elements; with repeated elements a
sequence is deduplicated (see the counterexample). -/
theorem merge_idempotent (a : List Entry) (hwf : WFV (.dict a))
    (hseq : SeqOK (.dict a)) :
    ∃ m, merge_dicts (.dict a) (.dict a) (.dict a) = .ok m ∧
      pyEq (.dict m) (.dict a) = true :=
  (merge_ext_master (sizeOf a + sizeOf a) a a (Nat.le_refl _) hwf
    (dext_self hwf hseq)).1

theorem merge_idempotent_witness :
    ∃ m, merge_dicts (.dict [("k", PyVal.list [PyVal.int 1, PyVal.int 2])])
      (.dict [("k", PyVal.list [PyVal.int 1, PyVal.int 2])])
      (.dict [("k", PyVal.list [PyVal.int 1, PyVal.int 2])]) = .ok m ∧
      pyEq (.dict m) (.dict [("k", PyVal.list [PyVal.int 1, PyVal.int 2])]) = true := by
  have hwf : WFV (.dict [("k", PyVal.list [PyVal.int 1, PyVal.int 2])]) := by
    apply WFV.dict
    · simp [keysOf]
    · intro e he
      simp at he
      rw [he]
      apply WFV.list
      intro x hx
      simp at hx
      rcases hx with h | h <;> rw [h] <;> exact WFV.scalar rfl
  have hseq : SeqOK (.dict [("k", PyVal.list [PyVal.int 1, PyVal.int 2])]) := by
    apply SeqOK.dict
    intro e he
    simp at he
    rw [he]
    apply SeqOK.list
    · simp [List.pairwise_cons, pyEq]
    · intro x hx
      simp at hx
      rcases hx with h | h <;> rw [h] <;> exact SeqOK.scalar rfl
  exact merge_idempotent [("k", PyVal.list [PyVal.int 1, PyVal.int 2])] hwf hseq

/-!
## C8: merge performs no mutation of its inputs

To state a frame property about Python object mutation we re-run the merge
over **identity-annotated** values: every mapping and sequence node carries
the id of the Python object holding it, and the instrumented functions
thread a state `(next fresh id, log of mutated ids)`.  Each construction of
a new container (`result = {}`, `result = []`, the default `{}`/`[]` of
`d.get`) allocates a fresh id; each mutating statement of the source
(`result[key] = v`, `result.append(i)`) logs the id of the object it
mutates.  The transient `set` objects (`set(...)` of keys, `key_types`) are
not document objects and are freshly created and dropped inside one
iteration; they are omitted from the instrumentation.  The theorem shows
every logged id is an id allocated by the merge itself, so no node of the
three inputs is ever mutated, and the returned document is a newly
allocated object.
-/

/-- Object identity of a Python container.  Its `SizeOf` is constant so
that ids do not interfere with the termination measure. -/
structure OId where
  val : Nat
deriving DecidableEq, Repr

instance : SizeOf OId := ⟨fun _ => 0⟩

/-- `PyVal` with object identities on every container node. -/
inductive HVal where
  | str (s : String)
  | ustr (s : String)
  | int (n : Int)
  | bool (b : Bool)
  | null
  | dict (id : OId) (d : List (String × HVal))
  | list (id : OId) (l : List HVal)

abbrev HEntry := String × HVal

mutual

/-- Forget the identities (Python `==` and `type` do not inspect them). -/
def eraseH : HVal → PyVal
  | .str s => .str s
  | .ustr s => .ustr s
  | .int n => .int n
  | .bool b => .bool b
  | .null => .null
  | .dict _ d => .dict (eraseEntries d)
  | .list _ l => .list (eraseElems l)
termination_by v => sizeOf v
decreasing_by
  all_goals simp_wf
  all_goals omega

def eraseEntries : List HEntry → List Entry
  | [] => []
  | e :: rest => (e.1, eraseH e.2) :: eraseEntries rest
termination_by l => sizeOf l
decreasing_by
  all_goals simp_wf
  all_goals (rcases e with ⟨k, v⟩; simp; omega)

def eraseElems : List HVal → List PyVal
  | [] => []
  | x :: rest => eraseH x :: eraseElems rest
termination_by l => sizeOf l
decreasing_by
  all_goals simp_wf
  all_goals omega

end

def lookupKH (key : String) : List HEntry → Option HVal
  | [] => none
  | e :: rest => if e.1 = key then some e.2 else lookupKH key rest

def getVH (key : String) (d : List HEntry) : HVal :=
  (lookupKH key d).getD .null

def inDH (key : String) (d : List HEntry) : Bool :=
  (lookupKH key d).isSome

def keysOfH (d : List HEntry) : List String :=
  d.map (fun e => e.1)

def isDictH : HVal → Bool
  | .dict _ _ => true
  | _ => false

def isListH : HVal → Bool
  | .list _ _ => true
  | _ => false

theorem sizeOf_lookupKH {key : String} {d : List HEntry} {v : HVal}
    (h : lookupKH key d = some v) : sizeOf v + 3 ≤ sizeOf d := by
  induction d with
  | nil => simp [lookupKH] at h
  | cons e rest ih =>
    simp only [lookupKH] at h
    by_cases he : e.1 = key
    · simp [he] at h
      subst h
      rcases e with ⟨k, w⟩
      simp
      have := one_le_sizeOf_list rest
      omega
    · simp [he] at h
      have := ih h
      rcases e with ⟨k, w⟩
      simp
      omega

mutual

/-- Annotate a document with fresh object ids starting at `n` (every
container node of a parsed document is a distinct Python object). -/
def annot : PyVal → Nat → HVal × Nat
  | .str s, n => (.str s, n)
  | .ustr s, n => (.ustr s, n)
  | .int m, n => (.int m, n)
  | .bool b, n => (.bool b, n)
  | .null, n => (.null, n)
  | .dict d, n =>
    let r := annotEntries d (n + 1)
    (.dict ⟨n⟩ r.1, r.2)
  | .list l, n =>
    let r := annotElems l (n + 1)
    (.list ⟨n⟩ r.1, r.2)
termination_by v n => sizeOf v
decreasing_by
  all_goals simp_wf
  all_goals omega

def annotEntries : List Entry → Nat → List HEntry × Nat
  | [], n => ([], n)
  | e :: rest, n =>
    let r1 := annot e.2 n
    let r2 := annotEntries rest r1.2
    ((e.1, r1.1) :: r2.1, r2.2)
termination_by l n => sizeOf l
decreasing_by
  all_goals simp_wf
  all_goals (try rcases e with ⟨k, v⟩)
  all_goals simp
  all_goals omega

def annotElems : List PyVal → Nat → List HVal × Nat
  | [], n => ([], n)
  | x :: rest, n =>
    let r1 := annot x n
    let r2 := annotElems rest r1.2
    (r1.1 :: r2.1, r2.2)
termination_by l n => sizeOf l
decreasing_by
  all_goals simp_wf
  all_goals omega

end

/-- `i` is the identity of some container node inside `v`. -/
inductive HasId : Nat → HVal → Prop where
  | dictSelf {i : Nat} {d : List HEntry} : HasId i (.dict ⟨i⟩ d)
  | dictMem {i : Nat} {j : OId} {d : List HEntry} (e : HEntry) :
      e ∈ d → HasId i e.2 → HasId i (.dict j d)
  | listSelf {i : Nat} {l : List HVal} : HasId i (.list ⟨i⟩ l)
  | listMem {i : Nat} {j : OId} {l : List HVal} (x : HVal) :
      x ∈ l → HasId i x → HasId i (.list j l)

theorem annot_bounds : ∀ (M : Nat),
    (∀ (v : PyVal) (n : Nat), sizeOf v ≤ M →
      n ≤ (annot v n).2 ∧ ∀ i, HasId i (annot v n).1 → i < (annot v n).2) ∧
    (∀ (l : List Entry) (n : Nat), sizeOf l ≤ M →
      n ≤ (annotEntries l n).2 ∧
      ∀ i e, e ∈ (annotEntries l n).1 → HasId i e.2 → i < (annotEntries l n).2) ∧
    (∀ (l : List PyVal) (n : Nat), sizeOf l ≤ M →
      n ≤ (annotElems l n).2 ∧
      ∀ i x, x ∈ (annotElems l n).1 → HasId i x → i < (annotElems l n).2) := by
  intro M
  induction M with
  | zero =>
    refine ⟨fun v n h => ?_, fun l n h => ?_, fun l n h => ?_⟩
    · have := one_le_sizeOf_pyval v
      omega
    · have := one_le_sizeOf_list l
      omega
    · have := one_le_sizeOf_list l
      omega
  | succ M ih =>
    obtain ⟨ihv, ihe, ihx⟩ := ih
    refine ⟨fun v n hs => ?_, fun l n hs => ?_, fun l n hs => ?_⟩
    · cases v with
      | dict d =>
        simp at hs
        have hsub := ihe d (n + 1) (by omega)
        rw [annot.eq_def]
        simp only
        refine ⟨by omega, ?_⟩
        intro i hi
        cases hi with
        | dictSelf => omega
        | dictMem e hmem hid => exact hsub.2 i e hmem hid
      | list l =>
        simp at hs
        have hsub := ihx l (n + 1) (by omega)
        rw [annot.eq_def]
        simp only
        refine ⟨by omega, ?_⟩
        intro i hi
        cases hi with
        | listSelf => omega
        | listMem x hmem hid => exact hsub.2 i x hmem hid
      | str s =>
        rw [annot.eq_def]
        exact ⟨Nat.le_refl _, fun i hi => by cases hi⟩
      | ustr s =>
        rw [annot.eq_def]
        exact ⟨Nat.le_refl _, fun i hi => by cases hi⟩
      | int m =>
        rw [annot.eq_def]
        exact ⟨Nat.le_refl _, fun i hi => by cases hi⟩
      | bool b =>
        rw [annot.eq_def]
        exact ⟨Nat.le_refl _, fun i hi => by cases hi⟩
      | null =>
        rw [annot.eq_def]
        exact ⟨Nat.le_refl _, fun i hi => by cases hi⟩
    · cases l with
      | nil =>
        rw [annotEntries.eq_def]
        exact ⟨Nat.le_refl _, fun i e he => by simp at he⟩
      | cons e rest =>
        rcases e with ⟨k, v⟩
        simp at hs
        have h1 := ihv v n (by omega)
        have h2 := ihe rest (annot v n).2 (by omega)
        rw [annotEntries.eq_def]
        simp only
        refine ⟨by omega, ?_⟩
        intro i e2 he2 hid
        rcases List.mem_cons.mp he2 with h | h
        · rw [h] at hid
          have := h1.2 i hid
          omega
        · exact h2.2 i e2 h hid
    · cases l with
      | nil =>
        rw [annotElems.eq_def]
        exact ⟨Nat.le_refl _, fun i x hx => by simp at hx⟩
      | cons x rest =>
        simp at hs
        have h1 := ihv x n (by omega)
        have h2 := ihx rest (annot x n).2 (by omega)
        rw [annotElems.eq_def]
        simp only
        refine ⟨by omega, ?_⟩
        intro i x2 hx2 hid
        rcases List.mem_cons.mp hx2 with h | h
        · rw [h] at hid
          have := h1.2 i hid
          omega
        · exact h2.2 i x2 h hid

/-- Instrumentation state: next fresh object id, log of mutated ids. -/
abbrev HSt := Nat × List Nat

/-- `d.get(key, {})`: the default `{}` is evaluated first and allocates a
fresh empty dict object whether or not the key is present. -/
def getOrFreshDict (key : String) (d : List HEntry) (st : HSt) : HVal × HSt :=
  let deflt := HVal.dict ⟨st.1⟩ []
  let st2 : HSt := (st.1 + 1, st.2)
  match lookupKH key d with
  | some v => (v, st2)
  | none => (deflt, st2)

/-- `d.get(key, [])`. -/
def getOrFreshList (key : String) (d : List HEntry) (st : HSt) : HVal × HSt :=
  let deflt := HVal.list ⟨st.1⟩ []
  let st2 : HSt := (st.1 + 1, st.2)
  match lookupKH key d with
  | some v => (v, st2)
  | none => (deflt, st2)

def asPyListH : HVal → Except MergeErr (List HVal)
  | .list _ l => .ok l
  | _ => .error .typeError

/-- The inner loop of `merge_lists`: `result.append(i)` mutates the result
object `rid`. -/
def mergeStepH (rid : Nat) (acc : List HVal × HSt) (i : HVal) : List HVal × HSt :=
  match acc.1.find? (fun r => pyEq (eraseH r) (eraseH i)) with
  | none => (acc.1 ++ [i], (acc.2.1, rid :: acc.2.2))
  | some r =>
    if isinst (eraseH i) (typeOf (eraseH r)) then acc
    else (acc.1 ++ [i], (acc.2.1, rid :: acc.2.2))

/-- Instrumented `merge_lists` on the three `d.get(key, [])` arguments:
`result = []` allocates, each append mutates only `result`; a non-list
argument (`None`) fails when it is first iterated. -/
def merge_lists3H (x y z : HVal) (st : HSt) : Except MergeErr HVal × HSt :=
  let rid := st.1
  let st1 : HSt := (st.1 + 1, st.2)
  match asPyListH x with
  | .error e => (.error e, st1)
  | .ok lx =>
    let a1 := lx.foldl (mergeStepH rid) ([], st1)
    match asPyListH y with
    | .error e => (.error e, a1.2)
    | .ok ly =>
      let a2 := ly.foldl (mergeStepH rid) a1
      match asPyListH z with
      | .error e => (.error e, a2.2)
      | .ok lz =>
        let a3 := lz.foldl (mergeStepH rid) a2
        (.ok (.list ⟨rid⟩ a3.1), a3.2)

theorem sizeOf_gofd_le (key : String) (d : List HEntry) (st : HSt) :
    sizeOf (getOrFreshDict key d st).1 ≤ sizeOf d + 1 := by
  unfold getOrFreshDict
  cases h : lookupKH key d with
  | none =>
    simp
    have := one_le_sizeOf_list d
    omega
  | some v =>
    simp
    have := sizeOf_lookupKH h
    omega

theorem sizeOf_gofd_strict {k : String} {d : List HEntry} (st : HSt)
    (h : isDictH (getVH k d) = true) :
    sizeOf (getOrFreshDict k d st).1 + 3 ≤ sizeOf d := by
  unfold getOrFreshDict
  cases hl : lookupKH k d with
  | none => simp [getVH, hl, isDictH] at h
  | some v =>
    simp
    exact sizeOf_lookupKH hl

theorem sizeOf_gofl_le (key : String) (d : List HEntry) (st : HSt) :
    sizeOf (getOrFreshList key d st).1 ≤ sizeOf d + 1 := by
  unfold getOrFreshList
  cases h : lookupKH key d with
  | none =>
    simp
    have := one_le_sizeOf_list d
    omega
  | some v =>
    simp
    have := sizeOf_lookupKH h
    omega

mutual

/-- Instrumented `merge_dicts`: `result = {}` allocates a fresh dict whose
id is returned with the merged entries. -/
def merge_dictsH (ancestor left right : HVal) (st : HSt) :
    Except MergeErr (Nat × List HEntry) × HSt :=
  match ancestor, left, right with
  | .dict _ da, .dict _ dl, .dict _ dr =>
    match mergeKeysH st.1 da dl dr ((keysOfH da ++ keysOfH dl ++ keysOfH dr).dedup)
        (st.1 + 1, st.2) with
    | (.error e, st2) => (.error e, st2)
    | (.ok m, st2) => (.ok (st.1, m), st2)
  | _, _, _ => (.error .attributeError, (st.1 + 1, st.2))
termination_by (sizeOf ancestor + sizeOf left + sizeOf right, 0)
decreasing_by
  simp_wf
  apply Prod.Lex.left
  omega

/-- Key loop: `result[key] = v` mutates the result object `rid`. -/
def mergeKeysH (rid : Nat) (da dl dr : List HEntry) (keys : List String)
    (st : HSt) : Except MergeErr (List HEntry) × HSt :=
  match keys with
  | [] => (.ok [], st)
  | key :: rest =>
    match mergeKeyH da dl dr key st with
    | (.error e, st2) => (.error e, st2)
    | (.ok v, st2) =>
      let st3 : HSt := (st2.1, rid :: st2.2)
      match mergeKeysH rid da dl dr rest st3 with
      | (.error e, st4) => (.error e, st4)
      | (.ok res, st4) => (.ok ((key, v) :: res), st4)
termination_by (sizeOf da + sizeOf dl + sizeOf dr, keys.length + 1)
decreasing_by
  · simp_wf
    apply Prod.Lex.right
    omega
  · simp_wf
    apply Prod.Lex.right
    omega

/-- Loop body for one key (comparisons and type tests go through `eraseH`:
Python `==`, `type` and `isinstance` do not inspect identities). -/
def mergeKeyH (da dl dr : List HEntry) (key : String) (st : HSt) :
    Except MergeErr HVal × HSt :=
  if typeMismatchAt key (eraseEntries da) (eraseEntries dl) (eraseEntries dr) then
    (.error (.typeMismatch key), st)
  else if h : [da, dl, dr].any (fun d => isDictH (getVH key d)) then
    match merge_dictsH (getOrFreshDict key da st).1
        (getOrFreshDict key dl (getOrFreshDict key da st).2).1
        (getOrFreshDict key dr (getOrFreshDict key dl
          (getOrFreshDict key da st).2).2).1
        (getOrFreshDict key dr (getOrFreshDict key dl
          (getOrFreshDict key da st).2).2).2 with
    | (.error e, st2) => (.error e, st2)
    | (.ok (i, m), st2) => (.ok (.dict ⟨i⟩ m), st2)
  else if [da, dl, dr].any (fun d => isListH (getVH key d)) then
    merge_lists3H (getOrFreshList key da st).1
      (getOrFreshList key dl (getOrFreshList key da st).2).1
      (getOrFreshList key dr (getOrFreshList key dl
        (getOrFreshList key da st).2).2).1
      (getOrFreshList key dr (getOrFreshList key dl
        (getOrFreshList key da st).2).2).2
  else
    match lookupKH key da with
    | some va =>
      if inDH key dl && inDH key dr &&
         !pyEq (eraseH va) (eraseH (getVH key dl)) &&
         !pyEq (eraseH va) (eraseH (getVH key dr))
      then (.error (.bothChanged key), st)
      else if inDH key dl && !pyEq (eraseH va) (eraseH (getVH key dl)) then
        (.ok (getVH key dl), st)
      else if inDH key dr && !pyEq (eraseH va) (eraseH (getVH key dr)) then
        (.ok (getVH key dr), st)
      else (.ok va, st)
    | none =>
      if inDH key dl && inDH key dr &&
         !pyEq (eraseH (getVH key dl)) (eraseH (getVH key dr))
      then (.error (.bothChanged key), st)
      else if inDH key dl then (.ok (getVH key dl), st)
      else if inDH key dr then (.ok (getVH key dr), st)
      else (.error (.noValueFound key), st)
termination_by (sizeOf da + sizeOf dl + sizeOf dr, 1)
decreasing_by
  simp_wf
  apply Prod.Lex.left
  simp [isDictH] at h
  have ha := sizeOf_gofd_le key da st
  have hl2 := sizeOf_gofd_le key dl (getOrFreshDict key da st).2
  have hr2 := sizeOf_gofd_le key dr (getOrFreshDict key dl (getOrFreshDict key da st).2).2
  rcases h with h | h | h
  · have := sizeOf_gofd_strict (d := da) (k := key) st (by simp [isDictH, h])
    omega
  · have := sizeOf_gofd_strict (d := dl) (k := key)
      (getOrFreshDict key da st).2 (by simp [isDictH, h])
    omega
  · have := sizeOf_gofd_strict (d := dr) (k := key)
      (getOrFreshDict key dl (getOrFreshDict key da st).2).2 (by simp [isDictH, h])
    omega

end

/-- From `st` to `st'` the id counter only grows and every newly logged
mutation targets an id at or above `n0`. -/
def StOk (n0 : Nat) (st st' : HSt) : Prop :=
  st.1 ≤ st'.1 ∧ ∀ w ∈ st'.2, w ∈ st.2 ∨ n0 ≤ w

theorem stok_refl {n0 : Nat} {st : HSt} : StOk n0 st st :=
  ⟨Nat.le_refl _, fun w hw => Or.inl hw⟩

theorem stok_trans {n0 : Nat} {s1 s2 s3 : HSt} (h1 : StOk n0 s1 s2)
    (h2 : StOk n0 s2 s3) : StOk n0 s1 s3 := by
  refine ⟨Nat.le_trans h1.1 h2.1, fun w hw => ?_⟩
  rcases h2.2 w hw with h | h
  · exact h1.2 w h
  · exact Or.inr h

theorem stok_alloc {n0 : Nat} {st : HSt} : StOk n0 st (st.1 + 1, st.2) :=
  ⟨by omega, fun w hw => Or.inl hw⟩

theorem gofd_state (key : String) (d : List HEntry) (st : HSt) :
    (getOrFreshDict key d st).2 = (st.1 + 1, st.2) := by
  unfold getOrFreshDict
  cases h : lookupKH key d <;> simp

theorem gofl_state (key : String) (d : List HEntry) (st : HSt) :
    (getOrFreshList key d st).2 = (st.1 + 1, st.2) := by
  unfold getOrFreshList
  cases h : lookupKH key d <;> simp

theorem mergeStepH_stok {j n : Nat} (hrid : n ≤ j)
    (acc : List HVal × HSt) (i : HVal) :
    StOk n acc.2 (mergeStepH j acc i).2 := by
  unfold mergeStepH
  split
  · refine ⟨Nat.le_refl _, fun w hw => ?_⟩
    rcases List.mem_cons.mp hw with h | h
    · exact Or.inr (h ▸ hrid)
    · exact Or.inl h
  · split
    · exact stok_refl
    · refine ⟨Nat.le_refl _, fun w hw => ?_⟩
      rcases List.mem_cons.mp hw with h | h
      · exact Or.inr (h ▸ hrid)
      · exact Or.inl h

theorem foldl_mergeStepH_stok {j n : Nat} (hrid : n ≤ j) :
    ∀ (l : List HVal) (acc : List HVal × HSt),
      StOk n acc.2 (l.foldl (mergeStepH j) acc).2 := by
  intro l
  induction l with
  | nil => intro acc; exact stok_refl
  | cons x rest ih =>
    intro acc
    exact stok_trans (mergeStepH_stok hrid acc x) (ih (mergeStepH j acc x))

theorem merge_lists3H_spec (x y z : HVal) (st : HSt) (n0 : Nat)
    (h0 : n0 ≤ st.1) :
    StOk n0 st (merge_lists3H x y z st).2 ∧
    (∀ hv, (merge_lists3H x y z st).1 = .ok hv →
       ∃ l, hv = .list ⟨st.1⟩ l) := by
  unfold merge_lists3H
  have halloc : StOk n0 st (st.1 + 1, st.2) := stok_alloc
  cases hx : asPyListH x with
  | error e => exact ⟨halloc, fun hv h => by simp at h⟩
  | ok lx =>
    have h1 := foldl_mergeStepH_stok (j := st.1) (n := n0) h0 lx
      ([], (st.1 + 1, st.2))
    cases hy : asPyListH y with
    | error e => exact ⟨stok_trans halloc h1, fun hv h => by simp at h⟩
    | ok ly =>
      have h2 := foldl_mergeStepH_stok (j := st.1) (n := n0) h0 ly
        (lx.foldl (mergeStepH st.1) ([], (st.1 + 1, st.2)))
      cases hz : asPyListH z with
      | error e => exact ⟨stok_trans halloc (stok_trans h1 h2), fun hv h => by simp at h⟩
      | ok lz =>
        have h3 := foldl_mergeStepH_stok (j := st.1) (n := n0) h0 lz
          (ly.foldl (mergeStepH st.1)
            (lx.foldl (mergeStepH st.1) ([], (st.1 + 1, st.2))))
        refine ⟨stok_trans halloc (stok_trans h1 (stok_trans h2 h3)), ?_⟩
        intro hv h
        simp at h
        exact ⟨_, h.symm⟩

theorem sizeOf_oid (i : OId) : sizeOf i = 0 := rfl

theorem one_le_sizeOf_hval (v : HVal) : 1 ≤ sizeOf v := by
  cases v <;> simp_arith

theorem mergeKeyH_stok (da dl dr : List HEntry) (key : String) (st : HSt)
    (n0 : Nat) (h0 : n0 ≤ st.1)
    (hrec : [da, dl, dr].any (fun d => isDictH (getVH key d)) = true →
      StOk n0
        (getOrFreshDict key dr (getOrFreshDict key dl
          (getOrFreshDict key da st).2).2).2
        (merge_dictsH (getOrFreshDict key da st).1
          (getOrFreshDict key dl (getOrFreshDict key da st).2).1
          (getOrFreshDict key dr (getOrFreshDict key dl
            (getOrFreshDict key da st).2).2).1
          (getOrFreshDict key dr (getOrFreshDict key dl
            (getOrFreshDict key da st).2).2).2).2) :
    StOk n0 st (mergeKeyH da dl dr key st).2 := by
  have e3 : (getOrFreshDict key dr (getOrFreshDict key dl
      (getOrFreshDict key da st).2).2).2 = (st.1 + 3, st.2) := by
    simp [gofd_state]
  have e3l : (getOrFreshList key dr (getOrFreshList key dl
      (getOrFreshList key da st).2).2).2 = (st.1 + 3, st.2) := by
    simp [gofl_state]
  have hpre : StOk n0 st ((st.1 + 3, st.2) : HSt) :=
    ⟨by omega, fun w hw => Or.inl hw⟩
  rw [mergeKeyH.eq_def]
  split
  · exact stok_refl
  · split
    · rename_i h
      have hin := hrec h
      have hpre2 : StOk n0 st (getOrFreshDict key dr (getOrFreshDict key dl
          (getOrFreshDict key da st).2).2).2 := by
        rw [e3]
        exact hpre
      split
      · rename_i e st2 heq
        rw [heq] at hin
        exact stok_trans hpre2 hin
      · rename_i i m st2 heq
        rw [heq] at hin
        exact stok_trans hpre2 hin
    · split
      · have hsp := (merge_lists3H_spec
          (getOrFreshList key da st).1
          (getOrFreshList key dl (getOrFreshList key da st).2).1
          (getOrFreshList key dr (getOrFreshList key dl
            (getOrFreshList key da st).2).2).1
          (getOrFreshList key dr (getOrFreshList key dl
            (getOrFreshList key da st).2).2).2 n0 (by rw [e3l]; simp; omega)).1
        have hpre2 : StOk n0 st (getOrFreshList key dr (getOrFreshList key dl
            (getOrFreshList key da st).2).2).2 := by
          rw [e3l]
          exact hpre
        exact stok_trans hpre2 hsp
      · split
        · split
          · exact stok_refl
          · split
            · exact stok_refl
            · split
              · exact stok_refl
              · exact stok_refl
        · split
          · exact stok_refl
          · split
            · exact stok_refl
            · split
              · exact stok_refl
              · exact stok_refl

theorem mergeKeysH_stok (rid : Nat) (da dl dr : List HEntry) (n0 : Nat)
    (hrid : n0 ≤ rid)
    (hkey : ∀ key st2, n0 ≤ st2.1 → StOk n0 st2 (mergeKeyH da dl dr key st2).2) :
    ∀ (keys : List String) (st : HSt), n0 ≤ st.1 →
      StOk n0 st (mergeKeysH rid da dl dr keys st).2 := by
  intro keys
  induction keys with
  | nil =>
    intro st h0
    rw [mergeKeysH.eq_def]
    exact stok_refl
  | cons key rest ih =>
    intro st h0
    rw [mergeKeysH.eq_def]
    simp only
    have h1 := hkey key st h0
    split
    · rename_i e st2 heq
      rw [heq] at h1
      exact h1
    · rename_i v st2 heq
      rw [heq] at h1
      have hwrite : StOk n0 st2 ((st2.1, rid :: st2.2) : HSt) := by
        refine ⟨Nat.le_refl _, fun w hw => ?_⟩
        rcases List.mem_cons.mp hw with h | h
        · exact Or.inr (h ▸ hrid)
        · exact Or.inl h
      have h2 := ih (st2.1, rid :: st2.2) (by
        have := h1.1
        simp at this ⊢
        omega)
      split
      · rename_i e st4 heq2
        rw [heq2] at h2
        exact stok_trans h1 (stok_trans hwrite h2)
      · rename_i res st4 heq2
        rw [heq2] at h2
        exact stok_trans h1 (stok_trans hwrite h2)

theorem merge_dictsH_spec : ∀ (N : Nat) (x y z : HVal) (st : HSt) (n0 : Nat),
    sizeOf x + sizeOf y + sizeOf z ≤ N → n0 ≤ st.1 →
    StOk n0 st (merge_dictsH x y z st).2 ∧
    (∀ i m, (merge_dictsH x y z st).1 = .ok (i, m) → i = st.1) := by
  intro N
  induction N with
  | zero =>
    intro x y z st n0 h h0
    have := one_le_sizeOf_hval x
    omega
  | succ N ih =>
    intro x y z st n0 hle h0
    rw [merge_dictsH.eq_def]
    split
    · rename_i ia da il dl ir dr
      simp only [HVal.dict.sizeOf_spec, sizeOf_oid] at hle
      have hkey : ∀ key st2, n0 ≤ st2.1 →
          StOk n0 st2 (mergeKeyH da dl dr key st2).2 := by
        intro key st2 h02
        apply mergeKeyH_stok da dl dr key st2 n0 h02
        intro hany
        have ha := sizeOf_gofd_le key da st2
        have hb := sizeOf_gofd_le key dl (getOrFreshDict key da st2).2
        have hc := sizeOf_gofd_le key dr
          (getOrFreshDict key dl (getOrFreshDict key da st2).2).2
        have hstc : n0 ≤ (getOrFreshDict key dr (getOrFreshDict key dl
            (getOrFreshDict key da st2).2).2).2.1 := by
          simp [gofd_state]
          omega
        simp [isDictH] at hany
        rcases hany with h | h | h
        · have hstrict := sizeOf_gofd_strict (d := da) (k := key) st2
            (by simp [isDictH, h])
          exact (ih _ _ _ _ n0 (by omega) hstc).1
        · have hstrict := sizeOf_gofd_strict (d := dl) (k := key)
            (getOrFreshDict key da st2).2 (by simp [isDictH, h])
          exact (ih _ _ _ _ n0 (by omega) hstc).1
        · have hstrict := sizeOf_gofd_strict (d := dr) (k := key)
            (getOrFreshDict key dl (getOrFreshDict key da st2).2).2
            (by simp [isDictH, h])
          exact (ih _ _ _ _ n0 (by omega) hstc).1
      have hks := mergeKeysH_stok st.1 da dl dr n0 h0 hkey
        ((keysOfH da ++ keysOfH dl ++ keysOfH dr).dedup) (st.1 + 1, st.2)
        (by simp; omega)
      split
      · rename_i e st2 heq
        rw [heq] at hks
        refine ⟨stok_trans stok_alloc hks, ?_⟩
        intro i m h
        simp at h
      · rename_i m2 st2 heq
        rw [heq] at hks
        refine ⟨stok_trans stok_alloc hks, ?_⟩
        intro i m h
        simp at h
        exact h.1.symm
    · refine ⟨stok_alloc, ?_⟩
      intro i m h
      simp at h

/-- C8: the merge mutates none of its three inputs.  Annotating the parsed
inputs with distinct object ids below `n3` and running the instrumented
merge from fresh-id counter `n3`: every mutation in the log targets an id
at or above `n3` — an object allocated by the merge itself, never a node of
`ancestor`, `left` or `right` — and on success the returned document is the
object allocated at entry (`rid = n3`), a newly constructed value.  This
holds whether the merge returns a merged document or fails. -/
theorem merge_no_input_mutation (a l r : PyVal)
    (ha : HVal) (n1 : Nat) (hl : HVal) (n2 : Nat) (hr : HVal) (n3 : Nat)
    (res : Except MergeErr (Nat × List HEntry)) (st' : HSt)
    (e1 : annot a 0 = (ha, n1)) (e2 : annot l n1 = (hl, n2))
    (e3 : annot r n2 = (hr, n3))
    (erun : merge_dictsH ha hl hr (n3, []) = (res, st')) :
    (∀ w ∈ st'.2, n3 ≤ w) ∧
    (∀ i, (HasId i ha ∨ HasId i hl ∨ HasId i hr) → i < n3) ∧
    (∀ rid m, res = .ok (rid, m) → rid = n3) := by
  have hspec := merge_dictsH_spec (sizeOf ha + sizeOf hl + sizeOf hr)
    ha hl hr (n3, []) n3 (Nat.le_refl _) (by simp)
  rw [erun] at hspec
  obtain ⟨⟨hmono, hwrites⟩, hres⟩ := hspec
  have b1 : 0 ≤ n1 ∧ ∀ i, HasId i ha → i < n1 := by
    have h := (annot_bounds (sizeOf a)).1 a 0 (Nat.le_refl _)
    rw [e1] at h
    simpa using h
  have b2 : n1 ≤ n2 ∧ ∀ i, HasId i hl → i < n2 := by
    have h := (annot_bounds (sizeOf l)).1 l n1 (Nat.le_refl _)
    rw [e2] at h
    simpa using h
  have b3 : n2 ≤ n3 ∧ ∀ i, HasId i hr → i < n3 := by
    have h := (annot_bounds (sizeOf r)).1 r n2 (Nat.le_refl _)
    rw [e3] at h
    simpa using h
  refine ⟨?_, ?_, ?_⟩
  · intro w hw
    rcases hwrites w hw with h | h
    · simp at h
    · exact h
  · intro i hi
    rcases hi with h | h | h
    · have := b1.2 i h
      have := b2.1
      have := b3.1
      omega
    · have := b2.2 i h
      have := b3.1
      omega
    · exact b3.2 i h
  · intro rid m h
    have := hres rid m h
    simpa using this

theorem merge_no_input_mutation_witness :
    merge_dictsH (.dict ⟨0⟩ [("k", HVal.int 1)]) (.dict ⟨1⟩ [("k", HVal.int 1)])
      (.dict ⟨2⟩ [("k", HVal.int 1)]) (3, [])
      = (.ok (3, [("k", HVal.int 1)]), (4, [3])) ∧
    (3 : Nat) ≤ 3 ∧ (0 : Nat) < 3 ∧ (3 : Nat) = 3 := by
  have hrun : merge_dictsH (.dict ⟨0⟩ [("k", HVal.int 1)])
      (.dict ⟨1⟩ [("k", HVal.int 1)]) (.dict ⟨2⟩ [("k", HVal.int 1)]) (3, [])
      = (.ok (3, [("k", HVal.int 1)]), (4, [3])) := by
    simp [merge_dictsH, mergeKeysH, mergeKeyH, keysOfH, getVH, lookupKH, inDH,
      isDictH, isListH, eraseEntries, eraseH, typeMismatchAt, keyTypes, getV,
      lookupK, typeOf, isStrishT, pyEq, getOrFreshDict, getOrFreshList]
  have h := merge_no_input_mutation (.dict [("k", PyVal.int 1)])
    (.dict [("k", PyVal.int 1)]) (.dict [("k", PyVal.int 1)])
    (.dict ⟨0⟩ [("k", HVal.int 1)]) 1 (.dict ⟨1⟩ [("k", HVal.int 1)]) 2
    (.dict ⟨2⟩ [("k", HVal.int 1)]) 3
    (.ok (3, [("k", HVal.int 1)])) (4, [3])
    (by simp [annot, annotEntries, annotElems])
    (by simp [annot, annotEntries, annotElems])
    (by simp [annot, annotEntries, annotElems])
    hrun
  exact ⟨hrun, h.1 3 (by simp), h.2.1 0 (Or.inl HasId.dictSelf),
    h.2.2 3 [("k", HVal.int 1)] rfl⟩
